import Mathlib

/-
  Verification of the drf-jsonapi compound-document assembly and
  relationship-resolution engine against its specification.

  The Python source is shallowly embedded: serializers become pure
  functions on explicit state, Django/DRF collaborators (request query
  parameters, URL reversal) become function-valued parameters, and
  exceptions become `Except` values.
-/

namespace DrfJsonApi

/-- Engine-level errors, mirroring the exception taxonomy of the source:
`ParseError` (rest_framework), the repo's own `Error` (APIException used
as a domain error), Python `AttributeError`, `NotImplementedError`,
failed `assert`, and exhaustion of the recursion fuel. -/
inductive EngErr where
  | parseError (detail : String)
  | domainError (detail : String)
  | attributeError
  | notImplemented (detail : String)
  | assertionFailed
  | fuelExhausted
deriving DecidableEq, Repr

/-- Minimal resource-identifier object: a type and id pair,
as produced by `resource_identifier` serializers. -/
structure RId where
  type : String
  id : String
deriving DecidableEq, Repr

/-- Pagination metadata as assembled by
`RelationshipHandler.apply_pagination` in relationships.py. -/
structure PageMeta where
  count : Nat
  has_next : Bool
  has_previous : Bool
  page_size : Nat
  page : Nat
  num_pages : Nat
deriving DecidableEq, Repr

/-- Ceiling division on naturals, `ceil (a / b)` as used by Django's
`Paginator.num_pages`. -/
def natCeilDiv (a b : Nat) : Nat := (a + b - 1) / b

/-- Django `Paginator.num_pages` with `orphans = 0` and
`allow_empty_first_page = True`: `ceil(max(1, count) / per_page)`. -/
def num_pages (count per_page : Nat) : Nat := natCeilDiv (max 1 count) per_page

/-- Embedding of `RelationshipHandler.apply_pagination`
(relationships.py lines 143-180).  Django's `paginator.page(number)`
succeeds when `1 <= number <= num_pages` (the `number == 1` escape for
an empty collection is subsumed because `num_pages` is at least 1) and
raises `EmptyPage` otherwise; the `except EmptyPage` branch reports
`has_next = False` and `has_previous = (page_number == num_pages + 1)`. -/
def apply_pagination {α : Type} (related : List α) (page_size page_number : Nat) :
    List α × PageMeta :=
  let count := related.length
  let np := num_pages count page_size
  if 1 ≤ page_number ∧ page_number ≤ np then
    ((related.drop ((page_number - 1) * page_size)).take page_size,
      { count := count
        has_next := decide (page_number < np)
        has_previous := decide (1 < page_number)
        page_size := page_size
        page := page_number
        num_pages := np })
  else
    ([], { count := count
           has_next := false
           has_previous := decide (page_number = np + 1)
           page_size := page_size
           page := page_number
           num_pages := np })

/-- Relationship linkage: the `data` member of a relationship entry.
To-one linkage is a single identifier or null; to-many linkage is a
(possibly empty) identifier array. -/
inductive Linkage where
  | one : Option RId → Linkage
  | many : List RId → Linkage
deriving DecidableEq, Repr

/-- One entry of a resource object's `relationships` map, as assembled
by `ResourceSerializer.get_relationship_data`. -/
structure RelEntry where
  links : List (String × String)
  data : Option Linkage
  meta : Option PageMeta
deriving DecidableEq, Repr

/-- A serialized JSON:API resource object, the output of
`ResourceSerializer.to_representation`.  `get_meta` returns an empty
dict in the source (omitted), so only type, id, attributes,
relationships and links are modelled. -/
structure ResourceObj where
  type : String
  id : String
  attributes : List (String × String)
  relationships : List (String × RelEntry)
  links : List (String × String)
deriving DecidableEq, Repr

/-- The dedup key used by `ResourceListSerializer.included`. -/
def includedKey (x : ResourceObj) : String × String := (x.type, x.id)

/-- Python dict assignment `m[k] = v` on an insertion-ordered dict:
replacing the value of an existing key keeps that key's original
position; a new key is appended at the end. -/
def dictUpsert (m : List ((String × String) × ResourceObj))
    (k : String × String) (v : ResourceObj) :
    List ((String × String) × ResourceObj) :=
  if m.any (fun p => p.1 = k) then
    m.map (fun p => if p.1 = k then (k, v) else p)
  else
    m ++ [(k, v)]

/-- Embedding of `ResourceListSerializer.included` (resources.py lines
27-37): the dict comprehension over the accumulated list keyed by
`(type, id)`, then `.values()`. -/
def dedupIncluded (xs : List ResourceObj) : List ResourceObj :=
  (xs.foldl (fun m x => dictUpsert m (includedKey x) x) []).map (·.2)

/-- Keys of a list in first-occurrence order with duplicates removed,
used to state how the dict comprehension orders its keys. -/
def firstSeen {α : Type} [DecidableEq α] : List α → List α
  | [] => []
  | k :: ks => k :: (firstSeen ks).filter (· ≠ k)

/-- One error object of a JSON:API document (only the detail matters
for the top-level document shape). -/
structure ErrObj where
  detail : String
deriving DecidableEq, Repr

/-- Primary data of a `Document` instance: the default `{}` set by
`Document.__init__`, an explicit null, a single resource object or a
list of resource objects. -/
inductive PrimaryData where
  | emptyDict
  | null
  | one : ResourceObj → PrimaryData
  | many : List ResourceObj → PrimaryData
deriving DecidableEq, Repr

/-- The `Document` object from objects.py: the top-level envelope with
the defaults assigned by its constructor. -/
structure Document where
  data : PrimaryData := .emptyDict
  errors : List ErrObj := []
  meta : List (String × String) := []
  jsonapi : List (String × String) := []
  links : List (String × String) := []
  included : List ResourceObj := []
deriving DecidableEq, Repr

/-- One value of the ordered dict built by
`DocumentSerializer.to_representation`. -/
inductive TopVal where
  | primary : PrimaryData → TopVal
  | errs : List ErrObj → TopVal
  | obj : List (String × String) → TopVal
  | inc : List ResourceObj → TopVal
deriving DecidableEq, Repr

/-- Embedding of `DocumentSerializer.to_representation` (serializers/
objects.py lines 20-48): `data` is inserted first and deleted again
when `errors` is non-empty; `jsonapi`, `links`, `included` and `meta`
are appended only when truthy (non-empty). -/
def DocumentSerializer_to_representation (d : Document) :
    List (String × TopVal) :=
  let out : List (String × TopVal) := [("data", .primary d.data)]
  let out := if d.errors ≠ [] then
      (out.filter (fun p => p.1 ≠ "data")) ++ [("errors", .errs d.errors)]
    else out
  let out := if d.jsonapi ≠ [] then out ++ [("jsonapi", .obj d.jsonapi)] else out
  let out := if d.links ≠ [] then out ++ [("links", .obj d.links)] else out
  let out := if d.included ≠ [] then out ++ [("included", .inc d.included)] else out
  if d.meta ≠ [] then out ++ [("meta", .obj d.meta)] else out

/-- The key set of a document representation. -/
def docKeys (d : Document) : List String :=
  (DocumentSerializer_to_representation d).map (·.1)

/-- Configuration of one `RelationshipHandler` instance
(relationships.py lines 9-48).  `serializer_class` is the name under
which the related serializer is resolved; `show_data` is `none` when no
`show_data` attribute has ever been assigned on the instance (the base
class defines none), and `some b` when the attribute holds `b`. -/
structure HandlerCfg where
  serializer_class : String
  many : Bool := false
  read_only : Bool := false
  related_field : Option String := none
  show_data : Option Bool := none
deriving DecidableEq, Repr

/-- A resource whose named accessors hold related-entity id sets; the
mutation target of `set_related` / `add_related` / `remove_related`. -/
structure MutResource where
  fields : List (String × List String)
deriving DecidableEq, Repr

/-- Write a whole related set through a named accessor. -/
def MutResource.setField (r : MutResource) (f : String) (v : List String) :
    MutResource :=
  ⟨(r.fields.filter (fun p => p.1 ≠ f)) ++ [(f, v)]⟩

/-- Read a named accessor (Django related managers yield the empty set
when nothing is related). -/
def MutResource.getField (r : MutResource) (f : String) : List String :=
  ((r.fields.find? (fun p => p.1 = f)).map (·.2)).getD []

/-- Embedding of `RelationshipHandler.set_related` (relationships.py
lines 207-226): missing `related_field` raises NotImplementedError;
otherwise the accessor is overwritten.  No `read_only` check exists. -/
def set_related (h : HandlerCfg) (r : MutResource) (related : List String) :
    Except EngErr MutResource :=
  match h.related_field with
  | none => .error (.notImplemented "set_related is not implemented")
  | some f => .ok (r.setField f related)

/-- Embedding of `RelationshipHandler.add_related` (lines 182-205):
`assert self.many`, then missing `related_field` raises
NotImplementedError, then the items are added to the accessor.  No
`read_only` check exists. -/
def add_related (h : HandlerCfg) (r : MutResource) (related : List String) :
    Except EngErr MutResource :=
  if !h.many then .error .assertionFailed
  else match h.related_field with
    | none => .error (.notImplemented "add_related is not implemented")
    | some f => .ok (r.setField f (r.getField f ++ related))

/-- Embedding of `RelationshipHandler.remove_related` (lines 228-248):
`assert self.many`, then missing `related_field` raises
NotImplementedError, then the items are removed from the accessor.  No
`read_only` check exists. -/
def remove_related (h : HandlerCfg) (r : MutResource) (related : List String) :
    Except EngErr MutResource :=
  if !h.many then .error .assertionFailed
  else match h.related_field with
    | none => .error (.notImplemented "remove_related is not implemented")
    | some f => .ok (r.setField f ((r.getField f).filter (· ∉ related)))

/-- One route emitted by `Router.get_routes` for a relationship. -/
structure RelRoute where
  url : String
  mapping : List (String × String)
  name : String
deriving DecidableEq, Repr

/-- The per-relationship part of `Router.get_routes` (routers.py lines
14-40): a read-only handler maps only GET to `relationship_retrieve`,
otherwise POST/PATCH/DELETE write actions are mapped as well.  The
base routes inherited from DRF's `DefaultRouter` are an external
collaborator and are not modelled. -/
def get_routes (relationships : List (String × HandlerCfg)) : List RelRoute :=
  relationships.map (fun p =>
    { url := "^prefix/lookup/relationships/" ++ p.1 ++ "$"
      mapping :=
        if p.2.read_only then [("get", "relationship_retrieve")]
        else [("get", "relationship_retrieve"),
              ("post", "relationship_create"),
              ("patch", "relationship_update"),
              ("delete", "relationship_destroy")]
      name := "basename-relationships-" ++ p.1 })

/-- Ensure a key exists in the tree (Python `if root not in include_tree:
include_tree[root] = []`). -/
def treeEnsure (t : List (String × List String)) (root : String) :
    List (String × List String) :=
  if t.any (fun p => p.1 = root) then t else t ++ [(root, [])]

/-- Append a branch to a key's list (Python
`include_tree[root].append(branches)`). -/
def treeAppend (t : List (String × List String)) (root branch : String) :
    List (String × List String) :=
  t.map (fun p => if p.1 = root then (p.1, p.2 ++ [branch]) else p)

/-- Python `str.split(sep)` for a one-character separator, by structural
recursion over the characters: `""` yields `[""]` and separators at the
boundaries yield empty segments, exactly as in Python. -/
def splitChars (sep : Char) : List Char → List (List Char)
  | [] => [[]]
  | c :: cs =>
    let r := splitChars sep cs
    if c = sep then [] :: r
    else (c :: r.headD []) :: r.tail

/-- `inc.split(".")` from `_build_include_tree`. -/
def splitDot (s : String) : List String :=
  (splitChars (Char.ofNat 0x2E) s.data).map String.mk

/-- First segment of a dotted include path (`parts[0]`). -/
def includeRoot (inc : String) : String := (splitDot inc).headD ""

/-- Dotted remainder of an include path (`".".join(parts[1:])`). -/
def includeBranch (inc : String) : String :=
  String.intercalate "." (splitDot inc).tail

/-- One iteration of the `_build_include_tree` loop: ensure the first
segment's key exists, then append the non-empty dotted remainder. -/
def includeStep (tree : List (String × List String)) (inc : String) :
    List (String × List String) :=
  let root := includeRoot inc
  let tree := treeEnsure tree root
  let branches := includeBranch inc
  if branches ≠ "" then treeAppend tree root branches else tree

/-- Embedding of `ResourceSerializer._build_include_tree` (resources.py
lines 107-117): falsy (empty) entries are filtered out, each path is
split on `.`, grouped under its first segment and the dotted remainder
is appended when non-empty. -/
def build_include_tree (includes : List String) : List (String × List String) :=
  (includes.filter (fun i => i ≠ "")).foldl includeStep []

/-- Sub-paths carried forward for one relationship
(`self.include_tree.get(relation, [])`). -/
def treeGet (t : List (String × List String)) (root : String) : List String :=
  ((t.find? (fun p => p.1 = root)).map (·.2)).getD []

/-- Embedding of `ResourceSerializer.validate_includes` (resources.py
lines 93-105): the tree keys become `self.include` and every key must
name a declared relationship, otherwise the repo's `Error` (a domain
error, source parameter `include`) is raised listing all invalid names
in one message. -/
def validate_includes (declared : List String) (includes : List String) :
    Except EngErr (List (String × List String)) :=
  let tree := build_include_tree includes
  let keys := tree.map (·.1)
  let invalid := keys.filter (fun k => k ∉ declared)
  if invalid ≠ [] then
    .error (.domainError ("Invalid relationship(s): " ++
      String.intercalate ", " invalid))
  else
    .ok tree

/-- Embedding of `ResourceSerializer.apply_sparse_fieldset` (resources.py
lines 126-146): requested names not among the declared serializer fields
raise a ParseError naming them; otherwise the declared fields are
restricted to the requested ones (keeping declaration order). -/
def apply_sparse_fieldset (type_ : String) (declared : List String)
    (requested : List String) : Except EngErr (List String) :=
  let invalid := (firstSeen requested).filter (fun f => f ∉ declared)
  if invalid ≠ [] then
    .error (.parseError ("Invalid field(s) for fields[" ++ type_ ++ "]: " ++
      String.intercalate "," invalid))
  else
    .ok (declared.filter (fun f => f ∈ requested))

/-- A Python value held by the validator's disallowed-character lists:
the initial code points are ints, but the loop rebinds the lists to the
offending one-character strings. -/
inductive PyVal where
  | int : Nat → PyVal
  | str : Char → PyVal
deriving DecidableEq, Repr

/-- A JSON-ish payload for member-name validation: only the dict
structure matters (`isinstance(val, dict)` drives the recursion). -/
inductive JDict where
  | leaf : JDict
  | dict : List (String × JDict) → JDict

/-- The initial `disallowed_boundary_chars` list (validator.py lines
981-985): hyphen, low line and space as code points. -/
def initBoundaryChars : List PyVal := [.int 0x2D, .int 0x5F, .int 0x20]

/-- The initial `disallowed_chars` list (validator.py lines 987-1051):
JSON:API-reserved punctuation, DELETE and the C0 controls. -/
def initDisallowedChars : List PyVal :=
  ([0x2B, 0x2C, 0x2E, 0x5B, 0x5D, 0x21, 0x22, 0x23, 0x24, 0x25, 0x26,
    0x27, 0x28, 0x29, 0x2A, 0x2F, 0x3A, 0x3B, 0x3C, 0x3D, 0x3E, 0x3F,
    0x40, 0x5C, 0x5E, 0x60, 0x7B, 0x7C, 0x7D, 0x7E, 0x7F] ++
   List.range 0x20).map .int

/-- Message for an offending boundary character. -/
def boundaryMsg (c : Char) : String :=
  "\x27" ++ String.singleton c ++
    "\x27 is not a valid boundary character in a Member Name"

/-- Message for an offending character. -/
def charMsg (c : Char) : String :=
  "\x27" ++ String.singleton c ++ "\x27 is not a valid character in a Member Name"

mutual

/-- The body of `JsonApiValidator._validate_member_names` (validator.py
lines 1053-1086).  Crucially, the loop REBINDS `disallowed_boundary_chars`
and `disallowed_chars` to the filtered lists of offending one-character
strings, so from the second key of a dict onwards the membership test
`ord(char) in ...` compares an int against strings and never succeeds. -/
def vmnEntries (bnd chars : List PyVal) :
    List (String × JDict) → List String
  | [] => []
  | (key, val) :: rest =>
    if key = "" then
      ["<empty_string> is not a valid Member Name"] ++ vmnVal val ++
        vmnEntries bnd chars rest
    else
      let kl := key.toList
      let boundaryHits :=
        [kl.headD " ".front, kl.getLastD " ".front].filter
          (fun c => decide (PyVal.int c.toNat ∈ bnd))
      let charHits := kl.filter (fun c => decide (PyVal.int c.toNat ∈ chars))
      boundaryHits.map boundaryMsg ++ charHits.map charMsg ++ vmnVal val ++
        vmnEntries (boundaryHits.map .str) (charHits.map .str) rest

/-- Recursion into nested dict values: a fresh call re-initialises both
disallowed lists. -/
def vmnVal : JDict → List String
  | .leaf => []
  | .dict entries => vmnEntries initBoundaryChars initDisallowedChars entries

end

/-- Embedding of `JsonApiValidator._validate_member_names` applied to a
payload dictionary. -/
def validate_member_names (d : List (String × JDict)) : List String :=
  vmnEntries initBoundaryChars initDisallowedChars d

/-- A domain entity: an id, attribute accessors, and named relationship
accessors yielding the related entity set (empty for "no relation",
a singleton-or-empty list for to-one accessors). -/
inductive Entity where
  | mk : String → (String → String) → (String → List Entity) → Entity

/-- The entity's primary identifier (`get_id` with the default accessor). -/
def Entity.eid : Entity → String
  | .mk i _ _ => i

/-- Attribute access used for serializer field extraction. -/
def Entity.attr : Entity → String → String
  | .mk _ a _ => a

/-- Related-entity access through a named accessor
(`getattr(resource, related_field)`). -/
def Entity.rels : Entity → String → List Entity
  | .mk _ _ r => r

/-- The declared schema of one resource serializer class: its attribute
fields and its `define_relationships()` table. -/
structure SerializerDef where
  fields : List String
  relationships : List (String × HandlerCfg)

/-- The process-wide serializer registry: every `serializer_class`
reference resolves to a serializer definition, keyed by `Meta.type`. -/
abbrev Schema := String → SerializerDef

/-- The per-call request context: parsed numeric query parameters
(absent or empty values are `none`) and the URL-reversal collaborator
taking a route name and a pk (`NoReverseMatch` is `none`). -/
structure Request where
  GETnat : String → Option Nat
  reverse : String → String → Option String

/-- A `ResourceSerializer` after `__init__` (resources.py lines 60-91). -/
structure SerState where
  type_ : String
  fields : List String
  include_tree : List (String × List String)
  incl : List String
  only_fields : Option (List (String × List String))
  is_root : Bool

/-- Embedding of `ResourceSerializer.__init__`: relationships are
defined, the includes are validated (raising a domain error listing all
invalid names before anything is built), and the sparse fieldset for
this serializer's type is applied (raising a ParseError on undeclared
field names). -/
def serializer_init (schema : Schema) (t : String)
    (only_fields : Option (List (String × List String)))
    (includes : List String) (is_root : Bool) : Except EngErr SerState := do
  let declared := (schema t).relationships.map (·.1)
  let tree ← validate_includes declared includes
  let fields0 := (schema t).fields
  let fields ← match only_fields with
    | some of =>
      match of.find? (fun p => p.1 = t) with
      | some p => apply_sparse_fieldset t fields0 p.2
      | none => pure fields0
    | none => pure fields0
  .ok { type_ := t, fields := fields, include_tree := tree,
        incl := tree.map (·.1), only_fields := only_fields,
        is_root := is_root }

/-- Embedding of `RelationshipHandler.get_related`: reads the named
accessor, raising NotImplementedError when `related_field` is unset;
to-many returns the full set, to-one the single (optional) object. -/
def get_related (h : HandlerCfg) (e : Entity) : Except EngErr (List Entity) :=
  match h.related_field with
  | none => .error (.notImplemented "related_field is missing")
  | some f => .ok (if h.many then e.rels f else (e.rels f).head?.toList)

/-- Embedding of `RelationshipHandler.build_relationship_links`: URL
reversal of the `<basename>-relationships-<relation>` convention; a
missing route is tolerated and the link omitted. -/
def build_relationship_links (req : Request) (t relation : String)
    (e : Entity) : List (String × String) :=
  match req.reverse (t ++ "-relationships-" ++ relation) e.eid with
  | some url => [("self", url)]
  | none => []

/-- Embedding of `ResourceSerializer.get_links`: the `<basename>-detail`
self link, omitted on `NoReverseMatch`. -/
def resource_links (req : Request) (t : String) (e : Entity) :
    List (String × String) :=
  match req.reverse (t ++ "-detail") e.eid with
  | some url => [("self", url)]
  | none => []

/-- Embedding of `ResourceSerializer.validate_sparse_fieldsets`
(resources.py lines 119-124), the late validation run at the root after
the walk: every requested sparse-fieldset type must have been
encountered. -/
def validate_sparse_fieldsets
    (only_fields : Option (List (String × List String)))
    (included_types : List String) : Except EngErr Unit :=
  match only_fields with
  | none => .ok ()
  | some of =>
    if of = [] then .ok ()
    else
      let invalid := (of.map (·.1)).filter (fun ty => ty ∉ included_types)
      if invalid ≠ [] then
        .error (.parseError ("Invalid resource type(s): " ++
          String.intercalate ", " invalid))
      else .ok ()

/-- The output of serializing one entity: the resource object, the
included accumulator contributed, and the set of resource types
encountered. -/
structure BuildOut where
  resource : ResourceObj
  included : List ResourceObj
  included_types : List String
deriving DecidableEq, Repr

/-- Embedding of `ResourceSerializer.get_relationship_data`
(resources.py lines 227-292), parameterized by the nested-serializer
constructor `build` (type, carried-forward includes, entity).  The
unguarded `handler.show_data` read raises AttributeError when the
attribute was never assigned. -/
def get_relationship_data_f (req : Request)
    (build : String → List String → Entity → Except EngErr BuildOut)
    (st : SerState) (e : Entity) (relation : String) (h : HandlerCfg) :
    Except EngErr (RelEntry × List ResourceObj × List String) :=
  let links := build_relationship_links req st.type_ relation e
  let data0 : RelEntry := { links := links, data := none, meta := none }
  match h.show_data with
  | none => .error .attributeError
  | some sd =>
    if !sd ∧ relation ∉ st.incl then .ok (data0, [], [])
    else do
      let related ← get_related h e
      if related.isEmpty then
        .ok ({ data0 with
                data := some (if h.many then .many [] else .one none) }, [], [])
      else
        let paged :=
          if h.many then
            match req.GETnat ("page[" ++ relation ++ "][size]") with
            | some ps =>
              let pn := (req.GETnat ("page[" ++ relation ++ "][number]")).getD 1
              let pm := apply_pagination related ps pn
              (pm.1, some pm.2)
            | none => (related, none)
          else (related, none)
        let related := paged.1
        let rt := h.serializer_class
        let linkage : Linkage :=
          if h.many then .many (related.map (fun x => ⟨rt, x.eid⟩))
          else .one (related.head?.map (fun x => ⟨rt, x.eid⟩))
        let data1 : RelEntry := { data0 with data := some linkage, meta := paged.2 }
        if relation ∉ st.incl then .ok (data1, [], [])
        else
          let sub := treeGet st.include_tree relation
          if h.many then do
            let outs ← related.mapM (fun x => build rt sub x)
            .ok (data1,
                 outs.map (·.resource) ++ dedupIncluded (outs.flatMap (·.included)),
                 outs.flatMap (·.included_types))
          else
            match related.head? with
            | some x => do
              let out ← build rt sub x
              .ok (data1, out.resource :: out.included, out.included_types)
            | none => .ok (data1, [], [])

/-- Embedding of `ResourceSerializer.populate_relationships`
(resources.py lines 205-225), parameterized by the relationship-data
callback.  On the non-root path the loop first WRITES
`handler.show_data = False` into the shared handler instance; the
post-loop handler states are returned so that this frame effect is
observable.  An entry is added to the relationships map only when the
data dict is truthy. -/
def populate_relationships
    (grd : String → HandlerCfg → Except EngErr (RelEntry × List ResourceObj × List String))
    (is_root : Bool) :
    List (String × HandlerCfg) →
    Except EngErr (List (String × RelEntry) × List ResourceObj × List String ×
                   List (String × HandlerCfg))
  | [] => .ok ([], [], [], [])
  | (r, h) :: rest => do
    let h' := if is_root then h else { h with show_data := some false }
    let (entry, inc, tys) ← grd r h'
    let (entries, incs, tyss, post) ← populate_relationships grd is_root rest
    let keep := entry.links ≠ [] ∨ entry.data ≠ none ∨ entry.meta ≠ none
    .ok ((if keep then (r, entry) :: entries else entries),
         inc ++ incs, tys ++ tyss, (r, h') :: post)

/-- Embedding of `ResourceSerializer.to_representation` together with
the constructor: fuel bounds the nesting depth of serializer
construction (the source recursion is bounded by the include-tree
depth).  The serializer is initialised, attributes extracted from the
(possibly sparse-restricted) fields, relationships populated with
recursive side-loading into the included accumulator, and at the root
the late sparse-fieldset validation runs after the walk. -/
def buildResource (schema : Schema) (req : Request) :
    Nat → String → Option (List (String × List String)) → List String →
    Bool → Entity → Except EngErr BuildOut
  | 0, _, _, _, _, _ => .error .fuelExhausted
  | Nat.succ fuel, t, onlyF, includes, isRoot, e => do
    let st ← serializer_init schema t onlyF includes isRoot
    let attrs := st.fields.map (fun f => (f, e.attr f))
    let pr ← populate_relationships
      (fun r h => get_relationship_data_f req
        (fun rt sub x => buildResource schema req fuel rt onlyF sub false x)
        st e r h)
      isRoot ((schema t).relationships)
    let links := resource_links req t e
    let res : ResourceObj := { type := t, id := e.eid, attributes := attrs,
                               relationships := pr.1, links := links }
    let allTypes := t :: pr.2.2.1
    if isRoot then do
      let _ ← validate_sparse_fieldsets onlyF allTypes
      .ok ⟨res, pr.2.1, allTypes⟩
    else .ok ⟨res, pr.2.1, allTypes⟩

/-- The document produced by `RetrieveMixin.retrieve`: primary data is
the single built resource and `Document.included` is the serializer's
raw included accumulator. -/
def retrieve_document (schema : Schema) (req : Request) (fuel : Nat)
    (t : String) (onlyF : Option (List (String × List String)))
    (includes : List String) (e : Entity) : Except EngErr Document :=
  (buildResource schema req fuel t onlyF includes true e).map
    (fun out => { data := .one out.resource, included := out.included })

/-- The document produced by `ListMixin.list`: each entity is built by
the shared child serializer (each child is a root serializer) and
`Document.included` is `ResourceListSerializer.included`, the deduped
accumulator. -/
def list_document (schema : Schema) (req : Request) (fuel : Nat)
    (t : String) (onlyF : Option (List (String × List String)))
    (includes : List String) (es : List Entity) : Except EngErr Document := do
  let outs ← es.mapM (buildResource schema req fuel t onlyF includes true)
  .ok { data := .many (outs.map (·.resource))
        included := dedupIncluded (outs.flatMap (·.included)) }

/-- A handler is root-harmless when serializing it at the root with an
empty include list cannot raise: either linkage is not shown, or it is
shown and a backing accessor exists. -/
def rootHarmless (h : HandlerCfg) : Prop :=
  h.show_data = some false ∨ (h.show_data = some true ∧ h.related_field.isSome)

/-- A request carrying no query parameters and no reversible routes. -/
def emptyRequest : Request := ⟨fun _ => none, fun _ _ => none⟩

/-- An entity with no attributes and no related entities. -/
def bareEntity : Entity := .mk "1" (fun _ => "") (fun _ => [])

/-- A serializer registry where every type has two attribute fields and
no relationships. -/
def plainSchema : Schema := fun _ => ⟨["x", "y"], []⟩

/-- A leaf entity of type B for the nested-include scenario. -/
def c1B : Entity := .mk "y1" (fun _ => "") (fun _ => [])

/-- An entity of type A whose `bs` accessor reaches the B leaf. -/
def c1A : Entity := .mk "x1" (fun _ => "") (fun f => if f = "bs" then [c1B] else [])

/-- A root entity of type T whose `as` accessor reaches the A entity. -/
def c1Root : Entity := .mk "e" (fun _ => "") (fun f => if f = "as" then [c1A] else [])

/-- A three-type schema: T has to-many relationship `a` to A, A has
to-many relationship `b` to B, B has none. -/
def c1Schema : Schema := fun t =>
  if t = "T" then ⟨[], [("a", ⟨"A", true, false, some "as", some true⟩)]⟩
  else if t = "A" then ⟨[], [("b", ⟨"B", true, false, some "bs", some true⟩)]⟩
  else ⟨[], []⟩


/-
  Theorems.
-/

/-- C3: for every related collection, page size and 1-indexed page
number strictly greater than the number of pages, `apply_pagination`
returns an empty slice with `has_next = false`, `has_previous`
comparing the requested number to `num_pages + 1`, the total count, and
`page_size`, `page`, `num_pages` reported. -/
theorem c3_pagination_beyond_last {α : Type} (related : List α)
    (page_size page_number : Nat) (_hps : 0 < page_size)
    (hgt : num_pages related.length page_size < page_number) :
    apply_pagination related page_size page_number =
      ([], { count := related.length
             has_next := false
             has_previous := decide (page_number = num_pages related.length page_size + 1)
             page_size := page_size
             page := page_number
             num_pages := num_pages related.length page_size }) := by
  have hcond : ¬(1 ≤ page_number ∧
      page_number ≤ num_pages related.length page_size) := by omega
  simp only [apply_pagination, hcond, if_false, reduceIte]

/-- C3 witness: 9 items, page size 10, page number 2 yield the empty
slice with `has_next = false`, `has_previous = true`, `count = 9`,
`num_pages = 1`. -/
theorem c3_pagination_beyond_last_witness :
    0 < 10 ∧ num_pages (List.range 9).length 10 < 2 ∧
    apply_pagination (List.range 9) 10 2 =
      ([], { count := 9, has_next := false, has_previous := true,
             page_size := 10, page := 2, num_pages := 1 }) :=
  ⟨by decide, by decide,
   by simpa using c3_pagination_beyond_last (List.range 9) 10 2 (by decide) (by decide)⟩

/-- C4 counterexample: a `Document` with a non-empty errors list and a
non-empty included accumulator serializes to a representation that
contains an `included` key but no `data` key, so `included` does not
imply `data`. -/
theorem c4_counterexample :
    ¬("included" ∈ docKeys { data := .emptyDict, errors := [⟨"boom"⟩],
                             included := [⟨"t", "1", [], [], []⟩] } →
      "data" ∈ docKeys { data := .emptyDict, errors := [⟨"boom"⟩],
                         included := [⟨"t", "1", [], [], []⟩] }) := by
  decide

/-- C4 amended: the output of `DocumentSerializer.to_representation`
never contains both a `data` and an `errors` key (`data` is removed
when errors exist), and it contains an `included` key exactly when the
document's included list is non-empty, independently of whether `data`
is present. -/
theorem c4_data_errors_exclusive (d : Document) :
    ¬("data" ∈ docKeys d ∧ "errors" ∈ docKeys d) ∧
    ("included" ∈ docKeys d ↔ d.included ≠ []) := by
  unfold docKeys DocumentSerializer_to_representation
  split_ifs <;> simp_all

/-- C7 counterexample: a handler configured `read_only = true` with a
backing accessor happily mutates through `set_related`, `add_related`
and `remove_related` — none of them raises a domain error. -/
theorem c7_counterexample :
    (HandlerCfg.read_only ⟨"ser", true, true, some "x", none⟩ = true) ∧
    set_related ⟨"ser", true, true, some "x", none⟩ ⟨[]⟩ ["5"] =
      .ok ⟨[("x", ["5"])]⟩ ∧
    add_related ⟨"ser", true, true, some "x", none⟩ ⟨[("x", ["4"])]⟩ ["5"] =
      .ok ⟨[("x", ["4", "5"])]⟩ ∧
    remove_related ⟨"ser", true, true, some "x", none⟩ ⟨[("x", ["4", "5"])]⟩ ["5"] =
      .ok ⟨[("x", ["4"])]⟩ :=
  ⟨rfl, rfl, rfl, rfl⟩

/-- C7 amended: the handler mutators themselves ignore `read_only`
(they mutate whenever a backing accessor exists); read-only enforcement
lives in `Router.get_routes`, which registers only the GET
`relationship_retrieve` action for a read-only relationship, omitting
the POST/PATCH/DELETE write routes. -/
theorem c7_read_only_routes (relationships : List (String × HandlerCfg))
    (rel : String) (h : HandlerCfg) (hmem : (rel, h) ∈ relationships)
    (hro : h.read_only = true) :
    (∃ route ∈ get_routes relationships,
      route.name = "basename-relationships-" ++ rel ∧
      route.mapping = [("get", "relationship_retrieve")]) ∧
    (∀ r related f, h.related_field = some f →
      set_related h r related = .ok (r.setField f related)) := by
  constructor
  · refine ⟨{ url := "^prefix/lookup/relationships/" ++ rel ++ "$"
              mapping := [("get", "relationship_retrieve")]
              name := "basename-relationships-" ++ rel }, ?_, rfl, rfl⟩
    have : (fun p : String × HandlerCfg =>
        ({ url := "^prefix/lookup/relationships/" ++ p.1 ++ "$"
           mapping :=
             if p.2.read_only then [("get", "relationship_retrieve")]
             else [("get", "relationship_retrieve"),
                   ("post", "relationship_create"),
                   ("patch", "relationship_update"),
                   ("delete", "relationship_destroy")]
           name := "basename-relationships-" ++ p.1 } : RelRoute)) (rel, h) =
        { url := "^prefix/lookup/relationships/" ++ rel ++ "$"
          mapping := [("get", "relationship_retrieve")]
          name := "basename-relationships-" ++ rel } := by
      simp [hro]
    rw [get_routes]
    exact this ▸ List.mem_map_of_mem _ hmem
  · intro r related f hf
    simp [set_related, hf]

/-- C7 amended witness: a concrete read-only to-many handler gets only
the retrieve route and `set_related` still mutates. -/
theorem c7_read_only_routes_witness :
    (∃ route ∈ get_routes [("branch", ⟨"ser", true, true, some "x", none⟩)],
      route.name = "basename-relationships-" ++ "branch" ∧
      route.mapping = [("get", "relationship_retrieve")]) ∧
    (∀ r related f,
      HandlerCfg.related_field ⟨"ser", true, true, some "x", none⟩ = some f →
      set_related ⟨"ser", true, true, some "x", none⟩ r related =
        .ok (r.setField f related)) :=
  c7_read_only_routes [("branch", ⟨"ser", true, true, some "x", none⟩)]
    "branch" ⟨"ser", true, true, some "x", none⟩ (by decide) (by decide)

/-- C9: evaluation of `_validate_member_names` at the failing input.
A single-key dict `\x7b"_bad": ...\x7d` is flagged with the boundary
violation, but as soon as any other key precedes it in the same dict
the loop has rebound `disallowed_boundary_chars`/`disallowed_chars` to
lists of strings, the `ord(char) in ...` test can never succeed again,
and `\x7b"a": 1, "_bad": 2\x7d` yields no violation at all — the claim
that every key at every depth is checked is the documented intent, and
the code's rebinding is the bug. -/
theorem c9_member_names_first_key_only :
    validate_member_names [("_bad", .leaf)] =
      ["\x27_\x27 is not a valid boundary character in a Member Name"] ∧
    validate_member_names [("a", .leaf), ("_bad", .leaf)] = [] ∧
    validate_member_names [("stuff", .dict [("_bad", .leaf)])] =
      ["\x27_\x27 is not a valid boundary character in a Member Name"] ∧
    validate_member_names [("a+", .leaf), ("b.c", .leaf)] =
      ["\x27+\x27 is not a valid character in a Member Name"] := by
  refine ⟨by decide, by decide, by decide, by decide⟩

/-- Keys after a Python dict assignment: an existing key keeps the key
list unchanged, a new key is appended. -/
theorem dictUpsert_keys (m : List ((String × String) × ResourceObj))
    (k : String × String) (v : ResourceObj) :
    (dictUpsert m k v).map (·.1) =
      if k ∈ m.map (·.1) then m.map (·.1) else m.map (·.1) ++ [k] := by
  unfold dictUpsert
  by_cases h : m.any (fun p => p.1 = k)
  · have hk : k ∈ m.map (·.1) := by
      rcases List.any_eq_true.mp h with ⟨p, hp, he⟩
      exact List.mem_map.mpr ⟨p, hp, (of_decide_eq_true he).symm ▸ rfl⟩
    rw [if_pos h, if_pos hk]
    rw [List.map_map]
    refine List.map_congr_left ?_
    intro p hp
    by_cases hpk : p.1 = k
    · simp [hpk]
    · simp [hpk]
  · have hk : k ∉ m.map (·.1) := by
      intro hmem
      rcases List.mem_map.mp hmem with ⟨p, hp, he⟩
      exact h (List.any_eq_true.mpr ⟨p, hp, decide_eq_true he⟩)
    rw [if_neg h, if_neg hk]
    simp

/-- Replacing the entries of one key does not affect a different key's
lookup. -/
theorem find_map_replace_other (m : List ((String × String) × ResourceObj))
    (k : String × String) (v : ResourceObj) (k' : String × String)
    (hne : k' ≠ k) :
    (m.map (fun p => if p.1 = k then (k, v) else p)).find?
        (fun p => p.1 = k') =
      m.find? (fun p => p.1 = k') := by
  induction m with
  | nil => simp
  | cons q m ih =>
    by_cases hq : q.1 = k
    · have hq' : ¬(q.1 = k') := fun hc => hne (hc ▸ hq ▸ rfl)
      simp only [List.map_cons, if_pos hq, List.find?_cons,
        decide_eq_false hq', decide_eq_false (fun hc : k = k' => hne hc.symm)]
      exact ih
    · simp only [List.map_cons, if_neg hq, List.find?_cons]
      by_cases hq' : q.1 = k'
      · simp [hq']
      · simp only [decide_eq_false hq']
        exact ih

/-- Looking up the assigned key after a dict assignment yields the new
value. -/
theorem dictUpsert_find_self (m : List ((String × String) × ResourceObj))
    (k : String × String) (v : ResourceObj) :
    (dictUpsert m k v).find? (fun p => p.1 = k) = some (k, v) := by
  unfold dictUpsert
  by_cases h : m.any (fun p => p.1 = k)
  · rw [if_pos h]
    induction m with
    | nil => simp at h
    | cons q m ih =>
      by_cases hq : q.1 = k
      · simp [hq]
      · have hm : m.any (fun p => p.1 = k) = true := by
          rcases List.any_eq_true.mp h with ⟨p0, hp0, he0⟩
          rcases List.mem_cons.mp hp0 with h1 | h1
          · exact absurd (of_decide_eq_true (h1 ▸ he0)) hq
          · exact List.any_eq_true.mpr ⟨p0, h1, he0⟩
        simp only [List.map_cons, if_neg hq, List.find?_cons,
          decide_eq_false hq]
        exact ih hm
  · rw [if_neg h]
    have hnone : m.find? (fun p => p.1 = k) = none := by
      rw [List.find?_eq_none]
      intro p hp
      simp only [decide_eq_true_eq]
      intro hpk
      exact h (List.any_eq_true.mpr ⟨p, hp, decide_eq_true hpk⟩)
    rw [List.find?_append, hnone]
    simp

/-- Looking up any other key is unaffected by a dict assignment. -/
theorem dictUpsert_find_other (m : List ((String × String) × ResourceObj))
    (k : String × String) (v : ResourceObj) (k' : String × String)
    (hne : k' ≠ k) :
    (dictUpsert m k v).find? (fun p => p.1 = k') =
      m.find? (fun p => p.1 = k') := by
  unfold dictUpsert
  by_cases h : m.any (fun p => p.1 = k)
  · rw [if_pos h]
    exact find_map_replace_other m k v k' hne
  · rw [if_neg h, List.find?_append]
    by_cases hf : (m.find? (fun p => p.1 = k')).isSome
    · rcases Option.isSome_iff_exists.mp hf with ⟨p, hp⟩
      simp [hp]
    · have hnone : m.find? (fun p => p.1 = k') = none :=
        Option.not_isSome_iff_eq_none.mp hf
      simp [hnone, Ne.symm hne]


/-- Filtering away an element of `K` is absorbed by a not-in-`K`
filter. -/
theorem filter_ne_filter_not_mem (l : List (String × String))
    (a : String × String) (K : List (String × String)) (ha : a ∈ K) :
    (l.filter (· ≠ a)).filter (fun y => y ∉ K) =
      l.filter (fun y => y ∉ K) := by
  rw [List.filter_filter]
  refine List.filter_congr ?_
  intro y _
  by_cases hy : y = a
  · subst hy
    simp [ha]
  · simp [hy]

/-- Membership in an extended key list splits into the old list and the
new key. -/
theorem filter_not_mem_append_singleton (l : List (String × String))
    (K : List (String × String)) (a : String × String) :
    l.filter (fun y => y ∉ K ++ [a]) =
      (l.filter (· ≠ a)).filter (fun y => y ∉ K) := by
  rw [List.filter_filter]
  refine List.filter_congr ?_
  intro y _
  by_cases hy : y = a <;> by_cases hK : y ∈ K <;>
    simp [hy, hK, List.mem_append]

/-- A cons list always has a last element. -/
theorem getLast?_cons_ne_none {α : Type} (a : α) (l : List α) :
    (a :: l).getLast? ≠ none := by
  induction l generalizing a with
  | nil => simp
  | cons b l ih =>
    rw [List.getLast?_cons_cons]
    exact ih b

/-- The last element of a non-empty tail is the last element of the
whole list. -/
theorem getLast?_cons_of_some {α : Type} (a : α) (l : List α) (v : α)
    (h : l.getLast? = some v) : (a :: l).getLast? = some v := by
  cases l with
  | nil => simp at h
  | cons b l => rw [List.getLast?_cons_cons]; exact h

/-- Keys of the dict built by the Python comprehension fold: the keys
already present, then the first-seen fresh keys in order. -/
theorem buildDict_keys (xs : List ResourceObj)
    (m : List ((String × String) × ResourceObj)) :
    (xs.foldl (fun m x => dictUpsert m (includedKey x) x) m).map (·.1) =
      m.map (·.1) ++
        (firstSeen (xs.map includedKey)).filter (fun k => k ∉ m.map (·.1)) := by
  induction xs generalizing m with
  | nil => simp [firstSeen]
  | cons x xs ih =>
    rw [List.foldl_cons, ih, dictUpsert_keys]
    by_cases hk : includedKey x ∈ m.map (·.1)
    · rw [if_pos hk, List.map_cons]
      show _ = m.map (·.1) ++
        (includedKey x :: (firstSeen (xs.map includedKey)).filter
          (· ≠ includedKey x)).filter (fun k => k ∉ m.map (·.1))
      rw [List.filter_cons, if_neg (by simp only [decide_eq_true_eq]; exact fun hc => hc hk)]
      rw [filter_ne_filter_not_mem _ _ _ hk]
    · rw [if_neg hk, List.map_cons]
      show _ = m.map (·.1) ++
        (includedKey x :: (firstSeen (xs.map includedKey)).filter
          (· ≠ includedKey x)).filter (fun k => k ∉ m.map (·.1))
      rw [List.filter_cons, if_pos (by simp only [decide_eq_true_eq]; exact hk)]
      rw [filter_not_mem_append_singleton]
      simp

/-- Lookup in the dict built by the comprehension fold: the value at a
key is its last occurrence's, falling back to the initial dict. -/
theorem buildDict_find (xs : List ResourceObj)
    (m : List ((String × String) × ResourceObj)) (k : String × String) :
    (xs.foldl (fun m x => dictUpsert m (includedKey x) x) m).find?
        (fun p => p.1 = k) =
      (match (xs.filter (fun y => includedKey y = k)).getLast? with
        | some v => some (k, v)
        | none => m.find? (fun p => p.1 = k)) := by
  induction xs generalizing m with
  | nil => simp
  | cons x xs ih =>
    rw [List.foldl_cons, ih]
    by_cases hx : includedKey x = k
    · rw [List.filter_cons, if_pos (by simp only [decide_eq_true_eq]; exact hx)]
      cases hlast : (xs.filter (fun y => includedKey y = k)).getLast? with
      | some v => rw [getLast?_cons_of_some _ _ _ hlast]
      | none =>
        have hnil : xs.filter (fun y => includedKey y = k) = [] := by
          cases hf : xs.filter (fun y => includedKey y = k) with
          | nil => rfl
          | cons a l => exact absurd (hf ▸ hlast) (getLast?_cons_ne_none a l)
        rw [hnil]
        simp only [List.getLast?_singleton]
        show (dictUpsert m (includedKey x) x).find? (fun p => p.1 = k) =
          some (k, x)
        rw [← hx, dictUpsert_find_self]
    · rw [List.filter_cons, if_neg
        (by simp only [decide_eq_true_eq]; exact hx)]
      cases hlast : (xs.filter (fun y => includedKey y = k)).getLast? with
      | some v => rfl
      | none =>
        show (dictUpsert m (includedKey x) x).find? (fun p => p.1 = k) =
          m.find? (fun p => p.1 = k)
        exact dictUpsert_find_other m (includedKey x) x k
          (fun hc => hx hc.symm)

/-- Every entry of the comprehension dict is keyed by its value's
`(type, id)`. -/
theorem buildDict_key_inv (xs : List ResourceObj)
    (m : List ((String × String) × ResourceObj))
    (hm : ∀ p ∈ m, p.1 = includedKey p.2) :
    ∀ p ∈ xs.foldl (fun m x => dictUpsert m (includedKey x) x) m,
      p.1 = includedKey p.2 := by
  induction xs generalizing m with
  | nil => exact hm
  | cons x xs ih =>
    rw [List.foldl_cons]
    refine ih _ ?_
    intro p hp
    unfold dictUpsert at hp
    by_cases h : m.any (fun q => q.1 = includedKey x)
    · rw [if_pos h] at hp
      rcases List.mem_map.mp hp with ⟨q, hq, hqe⟩
      by_cases hq1 : q.1 = includedKey x
      · rw [if_pos hq1] at hqe
        rw [← hqe]
      · rw [if_neg hq1] at hqe
        exact hqe ▸ hm q hq
    · rw [if_neg h] at hp
      rcases List.mem_append.mp hp with h1 | h1
      · exact hm p h1
      · rw [List.mem_singleton.mp h1]
  
/-- `firstSeen` has no duplicates. -/
theorem firstSeen_nodup {α : Type} [DecidableEq α] (l : List α) :
    (firstSeen l).Nodup := by
  induction l with
  | nil => exact List.nodup_nil
  | cons k ks ih =>
    rw [firstSeen]
    refine List.Nodup.cons ?_ (List.Nodup.filter _ ih)
    intro hmem
    have := (List.mem_filter.mp hmem).2
    simp at this

/-- The keys of the dedup output are the first-seen distinct keys of the
input, in order. -/
theorem dedupIncluded_keys (xs : List ResourceObj) :
    (dedupIncluded xs).map includedKey = firstSeen (xs.map includedKey) := by
  unfold dedupIncluded
  rw [List.map_map]
  have hinv := buildDict_key_inv xs [] (by simp)
  have hmap :
      (xs.foldl (fun m x => dictUpsert m (includedKey x) x) []).map
          (includedKey ∘ (·.2)) =
        (xs.foldl (fun m x => dictUpsert m (includedKey x) x) []).map (·.1) :=
    List.map_congr_left fun p hp => (hinv p hp).symm
  rw [hmap, buildDict_keys]
  simp

/-- With distinct keys, `find?` at a member's key returns that member. -/
theorem find_self_of_nodup (m : List ((String × String) × ResourceObj))
    (hnd : (m.map (·.1)).Nodup) (p : (String × String) × ResourceObj)
    (hp : p ∈ m) :
    m.find? (fun q => q.1 = p.1) = some p := by
  induction m with
  | nil => simp at hp
  | cons q m ih =>
    rcases List.mem_cons.mp hp with rfl | hp2
    · simp [List.find?_cons]
    · have hq : ¬(q.1 = p.1) := by
        intro he
        rw [List.map_cons, List.nodup_cons] at hnd
        exact hnd.1 (he ▸ List.mem_map.mpr ⟨p, hp2, rfl⟩)
      have hnd2 : (m.map (·.1)).Nodup := by
        rw [List.map_cons] at hnd
        exact hnd.of_cons
      rw [List.find?_cons]
      simp only [decide_eq_false hq]
      exact ih hnd2 hp2

/-- Membership in the deduplicated included list is exactly being the
LAST occurrence of one's `(type, id)` key in the accumulator. -/
theorem dedupIncluded_mem_iff (xs : List ResourceObj) (y : ResourceObj) :
    y ∈ dedupIncluded xs ↔
      (xs.filter (fun z => includedKey z = includedKey y)).getLast? = some y := by
  constructor
  · intro hy
    rcases List.mem_map.mp hy with ⟨p, hp, hpy⟩
    have hkey : p.1 = includedKey p.2 := buildDict_key_inv xs [] (by simp) p hp
    have hnd :
        ((xs.foldl (fun m x => dictUpsert m (includedKey x) x) []).map
          (·.1)).Nodup := by
      rw [buildDict_keys]
      simpa using firstSeen_nodup (xs.map includedKey)
    have hfind := find_self_of_nodup _ hnd p hp
    rw [buildDict_find] at hfind
    cases hlast : (xs.filter (fun z => includedKey z = p.1)).getLast? with
    | some v =>
      rw [hlast] at hfind
      have hv : p = (p.1, v) := by
        have := Option.some.inj hfind
        exact this.symm
      have hval : v = y := by
        have : p.2 = v := by rw [hv]
        rw [← this, hpy]
      rw [hkey, hpy] at hlast
      rw [hlast, hval]
    | none =>
      rw [hlast] at hfind
      simp at hfind
  · intro hlast
    have hfind := buildDict_find xs [] (includedKey y)
    rw [hlast] at hfind
    have hmem := List.mem_of_find?_eq_some hfind
    exact List.mem_map.mpr ⟨(includedKey y, y), hmem, rfl⟩

/-- When entries sharing a key are equal, dedup preserves membership. -/
theorem mem_dedupIncluded_of_pairwise (xs : List ResourceObj)
    (hp : xs.Pairwise (fun u v => includedKey u = includedKey v → u = v)) :
    ∀ y ∈ xs, y ∈ dedupIncluded xs := by
  intro y hy
  rw [dedupIncluded_mem_iff]
  have hyf : y ∈ xs.filter (fun z => includedKey z = includedKey y) :=
    List.mem_filter.mpr ⟨hy, by simp⟩
  cases hlast : (xs.filter (fun z => includedKey z = includedKey y)).getLast? with
  | none =>
    cases hf : xs.filter (fun z => includedKey z = includedKey y) with
    | nil => rw [hf] at hyf; simp at hyf
    | cons a l => exact absurd (hf ▸ hlast) (getLast?_cons_ne_none a l)
  | some v =>
    have hvmem : v ∈ xs.filter (fun z => includedKey z = includedKey y) := by
      rcases List.mem_getLast?_eq_getLast (Option.mem_def.mpr hlast) with ⟨hne, hveq⟩
      rw [hveq]
      exact List.getLast_mem hne
    have hvx : v ∈ xs := (List.mem_filter.mp hvmem).1
    have hvk : includedKey v = includedKey y := by
      have := (List.mem_filter.mp hvmem).2
      simpa using this
    by_cases hyv : y = v
    · rw [hyv]
    · have hsym : Symmetric (fun u v : ResourceObj =>
          includedKey u = includedKey v → u = v) :=
        fun u w h he => (h he.symm).symm
      have := hp.forall hsym hy hvx hyv
      exact absurd (this hvk.symm) hyv

/-- C2 counterexample: two accumulated entries with the same
`(type, id)` but different attributes; the dict comprehension keeps the
LAST-seen entry (at the first-seen position), not the first-seen entry
as claimed. -/
theorem c2_counterexample :
    dedupIncluded [⟨"t", "1", [("name", "x")], [], []⟩,
                   ⟨"t", "1", [("name", "y")], [], []⟩] =
      [⟨"t", "1", [("name", "y")], [], []⟩] ∧
    dedupIncluded [⟨"t", "1", [("name", "x")], [], []⟩,
                   ⟨"t", "1", [("name", "y")], [], []⟩] ≠
      [⟨"t", "1", [("name", "x")], [], []⟩] := by
  exact ⟨by decide, by decide⟩

/-- C2 amended: the final included list exposed by the list serializer
has exactly one entry per distinct `(type, id)` pair, the pairs appear
in first-seen order, and the entry kept for each pair is the LAST-seen
one (not the first-seen one as the claim states). -/
theorem c2_dedup_amended (xs : List ResourceObj) :
    (dedupIncluded xs).map includedKey = firstSeen (xs.map includedKey) ∧
    ((dedupIncluded xs).map includedKey).Nodup ∧
    ∀ y, y ∈ dedupIncluded xs ↔
      (xs.filter (fun z => includedKey z = includedKey y)).getLast? = some y :=
  ⟨dedupIncluded_keys xs,
   (dedupIncluded_keys xs).symm ▸ firstSeen_nodup (xs.map includedKey),
   fun y => dedupIncluded_mem_iff xs y⟩

/-- String version of the filter-absorption lemma. -/
theorem filter_ne_filter_not_mem_str (l : List String) (a : String)
    (K : List String) (ha : a ∈ K) :
    (l.filter (· ≠ a)).filter (fun y => y ∉ K) =
      l.filter (fun y => y ∉ K) := by
  rw [List.filter_filter]
  refine List.filter_congr ?_
  intro y _
  by_cases hy : y = a
  · subst hy
    simp [ha]
  · simp [hy]

/-- String version of the extended-key-list filter split. -/
theorem filter_not_mem_append_singleton_str (l : List String)
    (K : List String) (a : String) :
    l.filter (fun y => y ∉ K ++ [a]) =
      (l.filter (· ≠ a)).filter (fun y => y ∉ K) := by
  rw [List.filter_filter]
  refine List.filter_congr ?_
  intro y _
  by_cases hy : y = a <;> by_cases hK : y ∈ K <;>
    simp [hy, hK, List.mem_append]

/-- `treeAppend` never changes the key list. -/
theorem treeAppend_keys (t : List (String × List String)) (r b : String) :
    (treeAppend t r b).map (·.1) = t.map (·.1) := by
  unfold treeAppend
  rw [List.map_map]
  refine List.map_congr_left ?_
  intro p _
  by_cases hp : p.1 = r <;> simp [hp]

/-- `treeEnsure` appends a missing key and leaves a present one. -/
theorem treeEnsure_keys (t : List (String × List String)) (r : String) :
    (treeEnsure t r).map (·.1) =
      if r ∈ t.map (·.1) then t.map (·.1) else t.map (·.1) ++ [r] := by
  unfold treeEnsure
  by_cases h : t.any (fun p => p.1 = r)
  · have hk : r ∈ t.map (·.1) := by
      rcases List.any_eq_true.mp h with ⟨p, hp, he⟩
      exact List.mem_map.mpr ⟨p, hp, (of_decide_eq_true he).symm ▸ rfl⟩
    rw [if_pos h, if_pos hk]
  · have hk : r ∉ t.map (·.1) := by
      intro hmem
      rcases List.mem_map.mp hmem with ⟨p, hp, he⟩
      exact h (List.any_eq_true.mpr ⟨p, hp, decide_eq_true he⟩)
    rw [if_neg h, if_neg hk]
    simp

/-- Keys after one `_build_include_tree` iteration. -/
theorem includeStep_keys (t : List (String × List String)) (inc : String) :
    (includeStep t inc).map (·.1) =
      if includeRoot inc ∈ t.map (·.1) then t.map (·.1)
      else t.map (·.1) ++ [includeRoot inc] := by
  unfold includeStep
  by_cases hb : includeBranch inc = ""
  · rw [if_neg (by simp [hb]), treeEnsure_keys]
  · rw [if_pos hb, treeAppend_keys, treeEnsure_keys]

/-- `treeEnsure` does not change any key's carried branches. -/
theorem treeGet_treeEnsure (t : List (String × List String)) (r r' : String) :
    treeGet (treeEnsure t r) r' = treeGet t r' := by
  unfold treeEnsure treeGet
  by_cases h : t.any (fun p => p.1 = r)
  · rw [if_pos h]
  · rw [if_neg h, List.find?_append]
    cases hf : t.find? (fun p => p.1 = r') with
    | some p => simp
    | none =>
      by_cases hr : r = r'
      · subst hr
        have : ∀ p ∈ t, ¬(p.1 = r) := by
          intro p hp hpr
          exact h (List.any_eq_true.mpr ⟨p, hp, decide_eq_true hpr⟩)
        simp
      · simp [hr]

/-- The ensured key is present afterwards. -/
theorem treeEnsure_mem_self (t : List (String × List String)) (r : String) :
    r ∈ (treeEnsure t r).map (·.1) := by
  rw [treeEnsure_keys]
  by_cases h : r ∈ t.map (·.1)
  · rw [if_pos h]; exact h
  · rw [if_neg h]; simp

/-- Appending a branch to a present key extends its branch list. -/
theorem treeGet_treeAppend_self (t : List (String × List String))
    (r b : String) (hmem : r ∈ t.map (·.1)) :
    treeGet (treeAppend t r b) r = treeGet t r ++ [b] := by
  induction t with
  | nil => simp at hmem
  | cons q t ih =>
    by_cases hq : q.1 = r
    · unfold treeAppend treeGet
      simp only [List.map_cons, if_pos hq, List.find?_cons, decide_eq_true hq]
      simp
    · have hmem2 : r ∈ t.map (·.1) := by
        rw [List.map_cons] at hmem
        rcases List.mem_cons.mp hmem with h1 | h1
        · exact absurd h1.symm hq
        · exact h1
      unfold treeAppend treeGet at ih ⊢
      simp only [List.map_cons, if_neg hq, List.find?_cons, decide_eq_false hq]
      exact ih hmem2

/-- Appending a branch to one key leaves other keys' branches alone. -/
theorem treeGet_treeAppend_other (t : List (String × List String))
    (r b r' : String) (h : r' ≠ r) :
    treeGet (treeAppend t r b) r' = treeGet t r' := by
  induction t with
  | nil => rfl
  | cons q t ih =>
    unfold treeAppend treeGet at *
    by_cases hq : q.1 = r
    · have hq' : ¬(q.1 = r') := fun hc => h (hc ▸ hq ▸ rfl)
      simp only [List.map_cons, if_pos hq, List.find?_cons,
        decide_eq_false hq', decide_eq_false (fun hc : r = r' => h hc.symm)]
      exact ih
    · simp only [List.map_cons, if_neg hq, List.find?_cons]
      by_cases hq' : q.1 = r'
      · simp [hq']
      · simp only [decide_eq_false hq']
        exact ih

/-- Branches of the processed path's own root after one iteration. -/
theorem includeStep_get_self (t : List (String × List String)) (inc : String) :
    treeGet (includeStep t inc) (includeRoot inc) =
      treeGet t (includeRoot inc) ++
        (if includeBranch inc = "" then [] else [includeBranch inc]) := by
  unfold includeStep
  by_cases hb : includeBranch inc = ""
  · rw [if_neg (by simp [hb]), treeGet_treeEnsure]
    simp [hb]
  · rw [if_pos hb,
      treeGet_treeAppend_self _ _ _ (treeEnsure_mem_self t (includeRoot inc)),
      treeGet_treeEnsure]
    simp [hb]

/-- Branches of any other root are untouched by one iteration. -/
theorem includeStep_get_other (t : List (String × List String))
    (inc : String) (r' : String) (h : r' ≠ includeRoot inc) :
    treeGet (includeStep t inc) r' = treeGet t r' := by
  unfold includeStep
  by_cases hb : includeBranch inc = ""
  · rw [if_neg (by simp [hb])]
    exact treeGet_treeEnsure t _ r'
  · rw [if_pos hb, treeGet_treeAppend_other _ _ _ _ h, treeGet_treeEnsure]

/-- Keys of the include-tree fold: existing keys, then first-seen fresh
roots in order. -/
theorem buildTree_keys (ps : List String) (tr : List (String × List String)) :
    (ps.foldl includeStep tr).map (·.1) =
      tr.map (·.1) ++
        (firstSeen (ps.map includeRoot)).filter (fun k => k ∉ tr.map (·.1)) := by
  induction ps generalizing tr with
  | nil => simp [firstSeen]
  | cons p ps ih =>
    rw [List.foldl_cons, ih, includeStep_keys]
    by_cases hk : includeRoot p ∈ tr.map (·.1)
    · rw [if_pos hk, List.map_cons]
      show _ = tr.map (·.1) ++
        (includeRoot p :: (firstSeen (ps.map includeRoot)).filter
          (· ≠ includeRoot p)).filter (fun k => k ∉ tr.map (·.1))
      rw [List.filter_cons,
        if_neg (by simp only [decide_eq_true_eq]; exact fun hc => hc hk)]
      rw [filter_ne_filter_not_mem_str _ _ _ hk]
    · rw [if_neg hk, List.map_cons]
      show _ = tr.map (·.1) ++
        (includeRoot p :: (firstSeen (ps.map includeRoot)).filter
          (· ≠ includeRoot p)).filter (fun k => k ∉ tr.map (·.1))
      rw [List.filter_cons, if_pos (by simp only [decide_eq_true_eq]; exact hk)]
      rw [filter_not_mem_append_singleton_str]
      simp

/-- Branch lists of the include-tree fold: existing branches, then the
non-empty dotted remainders of the paths grouped under this root, in
order. -/
theorem buildTree_get (ps : List String) (tr : List (String × List String))
    (root : String) :
    treeGet (ps.foldl includeStep tr) root =
      treeGet tr root ++
        (ps.filter (fun p => includeRoot p = root)).filterMap
          (fun p => if includeBranch p = "" then none else some (includeBranch p)) := by
  induction ps generalizing tr with
  | nil => simp
  | cons p ps ih =>
    rw [List.foldl_cons, ih, List.filter_cons]
    by_cases hr : includeRoot p = root
    · rw [if_pos (by simp only [decide_eq_true_eq]; exact hr)]
      rw [List.filterMap_cons]
      subst hr
      rw [includeStep_get_self]
      by_cases hb : includeBranch p = "" <;> simp [hb]
    · rw [if_neg (by simp only [decide_eq_true_eq]; exact hr)]
      rw [includeStep_get_other _ _ _ (fun hc => hr hc.symm)]

/-- Membership in `firstSeen` coincides with membership in the list. -/
theorem firstSeen_mem_iff {α : Type} [DecidableEq α] (l : List α) (x : α) :
    x ∈ firstSeen l ↔ x ∈ l := by
  induction l with
  | nil => simp [firstSeen]
  | cons k ks ih =>
    rw [firstSeen]
    constructor
    · intro h
      rcases List.mem_cons.mp h with rfl | h2
      · exact List.mem_cons_self _ _
      · exact List.mem_cons_of_mem _ (ih.mp (List.mem_filter.mp h2).1)
    · intro h
      rcases List.mem_cons.mp h with rfl | h2
      · exact List.mem_cons_self _ _
      · by_cases hx : x = k
        · exact hx ▸ List.mem_cons_self _ _
        · exact List.mem_cons_of_mem _
            (List.mem_filter.mpr ⟨ih.mpr h2, by simpa using hx⟩)

/-- C6: include paths are filtered of empty entries, split on `.` and
grouped by first segment with the dotted remainder carried forward (in
order); validation raises a single domain error listing exactly the
undeclared first segments (batch, not first-fail) and succeeds
otherwise; and a validation error aborts serializer construction
(`serializer_init` propagates it before any resource is built). -/
theorem c6_validate_includes_batch (declared : List String)
    (includes : List String) :
    ((build_include_tree includes).map (·.1) =
      firstSeen ((includes.filter (fun i => i ≠ "")).map includeRoot)) ∧
    (∀ root, treeGet (build_include_tree includes) root =
      ((includes.filter (fun i => i ≠ "")).filter
          (fun p => includeRoot p = root)).filterMap
        (fun p => if includeBranch p = "" then none
                  else some (includeBranch p))) ∧
    ((∀ p ∈ includes, p ≠ "" → includeRoot p ∈ declared) →
      validate_includes declared includes = .ok (build_include_tree includes)) ∧
    ((∃ p ∈ includes, p ≠ "" ∧ includeRoot p ∉ declared) →
      (validate_includes declared includes =
        .error (.domainError ("Invalid relationship(s): " ++
          String.intercalate ", "
            (((build_include_tree includes).map (·.1)).filter
              (fun k => k ∉ declared)))) ∧
       ∀ r, r ∈ ((build_include_tree includes).map (·.1)).filter
              (fun k => k ∉ declared) ↔
            ((∃ p ∈ includes, p ≠ "" ∧ includeRoot p = r) ∧ r ∉ declared))) ∧
    (∀ (schema : Schema) (t : String) onlyF isRoot er,
      (schema t).relationships.map (·.1) = declared →
      validate_includes declared includes = .error er →
      serializer_init schema t onlyF includes isRoot = .error er) := by
  have hkeys : (build_include_tree includes).map (·.1) =
      firstSeen ((includes.filter (fun i => i ≠ "")).map includeRoot) := by
    unfold build_include_tree
    rw [buildTree_keys]
    simp
  have hkeymem : ∀ r, r ∈ (build_include_tree includes).map (·.1) ↔
      ∃ p ∈ includes, p ≠ "" ∧ includeRoot p = r := by
    intro r
    rw [hkeys, firstSeen_mem_iff]
    constructor
    · intro h
      rcases List.mem_map.mp h with ⟨p, hp, he⟩
      rcases List.mem_filter.mp hp with ⟨hpi, hpe⟩
      exact ⟨p, hpi, by simpa using hpe, he⟩
    · rintro ⟨p, hpi, hpe, he⟩
      exact List.mem_map.mpr ⟨p, List.mem_filter.mpr ⟨hpi, by simpa using hpe⟩, he⟩
  refine ⟨hkeys, ?_, ?_, ?_, ?_⟩
  · intro root
    unfold build_include_tree
    rw [buildTree_get]
    rfl
  · intro hall
    have hemp : ((build_include_tree includes).map (·.1)).filter
        (fun k => k ∉ declared) = [] := by
      rw [List.filter_eq_nil_iff]
      intro k hk
      simp only [decide_eq_true_eq, not_not]
      rcases (hkeymem k).mp hk with ⟨p, hpi, hpe, he⟩
      exact he ▸ hall p hpi hpe
    simp only [validate_includes]
    rw [hemp]
    simp
  · rintro ⟨p, hpi, hpe, hpnd⟩
    have hne : ((build_include_tree includes).map (·.1)).filter
        (fun k => k ∉ declared) ≠ [] := by
      intro hnil
      have hmem : includeRoot p ∈ ((build_include_tree includes).map (·.1)).filter
          (fun k => k ∉ declared) :=
        List.mem_filter.mpr ⟨(hkeymem _).mpr ⟨p, hpi, hpe, rfl⟩, by simpa using hpnd⟩
      rw [hnil] at hmem
      simp at hmem
    constructor
    · simp only [validate_includes]
      rw [if_pos hne]
    · intro r
      constructor
      · intro hr
        rcases List.mem_filter.mp hr with ⟨h1, h2⟩
        exact ⟨(hkeymem r).mp h1, by simpa using h2⟩
      · rintro ⟨h1, h2⟩
        exact List.mem_filter.mpr ⟨(hkeymem r).mpr h1, by simpa using h2⟩
  · intro schema t onlyF isRoot er hdecl hval
    simp only [serializer_init, hdecl, hval]
    rfl

/-- C6 witness: a nested include with an empty trailing entry validates
and groups, and two undeclared roots are reported together in one
domain error. -/
theorem c6_validate_includes_batch_witness :
    validate_includes ["a"] ["a.b", "", "a"] =
      .ok (build_include_tree ["a.b", "", "a"]) ∧
    validate_includes [] ["bogus", "other"] =
      .error (.domainError ("Invalid relationship(s): " ++
        String.intercalate ", "
          (((build_include_tree ["bogus", "other"]).map (·.1)).filter
            (fun k => k ∉ ([] : List String))))) :=
  ⟨(c6_validate_includes_batch ["a"] ["a.b", "", "a"]).2.2.1 (by decide),
   ((c6_validate_includes_batch [] ["bogus", "other"]).2.2.2.1
     ⟨"bogus", by decide, by decide, by decide⟩).1⟩

/-- Bind on a successful `Except` applies the continuation. -/
theorem except_bind_ok {ε α β : Type} (a : α) (f : α → Except ε β) :
    (Except.ok a >>= f : Except ε β) = f a := rfl

/-- Bind on a failed `Except` short-circuits. -/
theorem except_bind_err {ε α β : Type} (er : ε) (f : α → Except ε β) :
    (Except.error er >>= f : Except ε β) = .error er := rfl

/-- `serializer_init` without sparse fieldsets, on valid includes. -/
theorem serializer_init_none (schema : Schema) (t : String)
    (includes : List String) (isRoot : Bool) (tree : List (String × List String))
    (hv : validate_includes ((schema t).relationships.map (·.1)) includes =
      .ok tree) :
    serializer_init schema t none includes isRoot =
      .ok ⟨t, (schema t).fields, tree, tree.map (·.1), none, isRoot⟩ := by
  simp only [serializer_init, hv]
  rfl

/-- `serializer_init` with a sparse fieldset for this serializer's own
type, on valid includes. -/
theorem serializer_init_sparse (schema : Schema) (t : String)
    (S : List String) (includes : List String) (isRoot : Bool)
    (tree : List (String × List String)) (fields : List String)
    (hv : validate_includes ((schema t).relationships.map (·.1)) includes =
      .ok tree)
    (hs : apply_sparse_fieldset t (schema t).fields S = .ok fields) :
    serializer_init schema t (some [(t, S)]) includes isRoot =
      .ok ⟨t, fields, tree, tree.map (·.1), some [(t, S)], isRoot⟩ := by
  simp only [serializer_init, hv, List.find?_cons, eq_self_iff_true,
    decide_True, hs]
  rfl

/-- C5: a sparse fieldset that is a subset of the declared fields
restricts the declared list to exactly the requested names, and every
resource the builder serializes for that type then carries an
attributes map keyed by exactly the requested set; a request naming an
undeclared field makes `apply_sparse_fieldset` raise a ParseError
naming the invalid fields. -/
theorem c5_sparse_fieldset (t : String) (F S : List String) :
    ((∀ f ∈ S, f ∈ F) →
      apply_sparse_fieldset t F S = .ok (F.filter (fun f => f ∈ S)) ∧
      ∀ f, (f ∈ F.filter (fun f => f ∈ S)) ↔ f ∈ S) ∧
    ((∃ f ∈ S, f ∉ F) →
      apply_sparse_fieldset t F S =
        .error (.parseError ("Invalid field(s) for fields[" ++ t ++ "]: " ++
          String.intercalate "," ((firstSeen S).filter (fun f => f ∉ F))))) ∧
    (∀ (schema : Schema) (req : Request) (fuel : Nat) (isRoot : Bool)
        (includes : List String) (e : Entity) (out : BuildOut),
      (schema t).fields = F →
      (∀ f ∈ S, f ∈ F) →
      buildResource schema req fuel t (some [(t, S)]) includes isRoot e =
        .ok out →
      ∀ f, (f ∈ out.resource.attributes.map (·.1)) ↔ f ∈ S) := by
  have hinv : (∀ f ∈ S, f ∈ F) →
      (firstSeen S).filter (fun f => f ∉ F) = [] := by
    intro hsub
    rw [List.filter_eq_nil_iff]
    intro f hf
    simp only [decide_eq_true_eq, not_not]
    exact hsub f ((firstSeen_mem_iff S f).mp hf)
  have hok : (∀ f ∈ S, f ∈ F) →
      apply_sparse_fieldset t F S = .ok (F.filter (fun f => f ∈ S)) := by
    intro hsub
    simp only [apply_sparse_fieldset]
    rw [hinv hsub]
    simp
  refine ⟨?_, ?_, ?_⟩
  · intro hsub
    refine ⟨hok hsub, ?_⟩
    intro f
    rw [List.mem_filter]
    constructor
    · intro h
      simpa using h.2
    · intro h
      exact ⟨hsub f h, by simpa using h⟩
  · rintro ⟨f, hfS, hfF⟩
    have hne : (firstSeen S).filter (fun f => f ∉ F) ≠ [] := by
      intro hnil
      have : f ∈ (firstSeen S).filter (fun f => f ∉ F) :=
        List.mem_filter.mpr ⟨(firstSeen_mem_iff S f).mpr hfS, by simpa using hfF⟩
      rw [hnil] at this
      simp at this
    simp only [apply_sparse_fieldset]
    rw [if_pos hne]
  · intro schema req fuel isRoot includes e out hF hsub hout
    cases fuel with
    | zero => simp [buildResource] at hout
    | succ fuel =>
      cases hv : validate_includes ((schema t).relationships.map (·.1)) includes with
      | error er =>
        rw [buildResource,
          (c6_validate_includes_batch _ includes).2.2.2.2 schema t _ isRoot er rfl hv,
          except_bind_err] at hout
        exact absurd hout (by simp)
      | ok tree =>
        have hinit := serializer_init_sparse schema t S includes isRoot tree
          (F.filter (fun f => f ∈ S)) hv (hF ▸ hok hsub)
        rw [buildResource, hinit, except_bind_ok] at hout
        cases hpr : populate_relationships
            (fun r h => get_relationship_data_f req
              (fun rt sub x => buildResource schema req fuel rt
                (some [(t, S)]) sub false x)
              ⟨t, F.filter (fun f => f ∈ S), tree, tree.map (·.1),
                some [(t, S)], isRoot⟩ e r h)
            isRoot ((schema t).relationships) with
        | error er =>
          rw [hpr, except_bind_err] at hout
          exact absurd hout (by simp)
        | ok pr =>
          rw [hpr, except_bind_ok] at hout
          have hattr : out.resource.attributes =
              (F.filter (fun f => f ∈ S)).map (fun f => (f, e.attr f)) := by
            cases isRoot with
            | false =>
              simp only [Bool.false_eq_true, reduceIte] at hout
              cases hout
              rfl
            | true =>
              simp only [reduceIte] at hout
              cases hvs : validate_sparse_fieldsets (some [(t, S)])
                  (t :: pr.2.2.1) with
              | error er =>
                rw [hvs, except_bind_err] at hout
                exact absurd hout (by simp)
              | ok u =>
                rw [hvs, except_bind_ok] at hout
                cases hout
                rfl
          intro f
          rw [hattr]
          simp only [List.map_map]
          constructor
          · intro h
            rcases List.mem_map.mp h with ⟨g, hg, he⟩
            have hgf : g = f := by simpa using he
            exact hgf ▸ (by simpa using (List.mem_filter.mp hg).2)
          · intro h
            exact List.mem_map.mpr ⟨f,
              List.mem_filter.mpr ⟨hsub f h, decide_eq_true h⟩, rfl⟩

/-- C5 witness: with declared fields `x, y`, requesting `x` yields an
attributes map keyed exactly by `x`; requesting the undeclared `z`
raises the ParseError naming it. -/
theorem c5_sparse_fieldset_witness :
    apply_sparse_fieldset "T" ["x", "y"] ["x"] = .ok ["x"] ∧
    apply_sparse_fieldset "T" ["x", "y"] ["z"] =
      .error (.parseError ("Invalid field(s) for fields[" ++ "T" ++ "]: " ++
        String.intercalate ","
          ((firstSeen ["z"]).filter (fun f => f ∉ ["x", "y"])))) ∧
    ∀ f, (f ∈ ["x", "y"].filter (fun f => f ∈ ["x"])) ↔ f ∈ ["x"] := by
  refine ⟨?_, ?_, ?_⟩
  · have h := ((c5_sparse_fieldset "T" ["x", "y"] ["x"]).1 (by decide)).1
    rw [h]
    rfl
  · exact (c5_sparse_fieldset "T" ["x", "y"] ["z"]).2.1 ⟨"z", by decide, by decide⟩
  · exact fun f => ((c5_sparse_fieldset "T" ["x", "y"] ["x"]).1 (by decide)).2 f

/-- C8 counterexample: on the non-root path `populate_relationships`
writes `show_data = False` into the handler instance, so a handler that
entered with `show_data = True` leaves the call changed. -/
theorem c8_counterexample :
    populate_relationships
        (fun r h => get_relationship_data_f emptyRequest
          (fun _ _ _ => .error .fuelExhausted)
          ⟨"T", [], [], [], none, false⟩ bareEntity r h)
        false [("r", ⟨"S", false, false, none, some true⟩)] =
      .ok ([], [], [], [("r", ⟨"S", false, false, none, some false⟩)]) ∧
    (⟨"S", false, false, none, some false⟩ : HandlerCfg) ≠
      ⟨"S", false, false, none, some true⟩ :=
  ⟨rfl, by decide⟩

/-- C8 amended: `get_relationship_data` reads but never writes handler
state; the only write the engine performs is `populate_relationships`
assigning the constant `show_data = False` on the non-root path.  On a
successful call the post-state handlers are exactly the input handlers,
with `show_data` overwritten to `some false` when not at the root, and
every other field (serializer class, cardinality, read-only flag,
backing accessor) unchanged; at the root nothing changes at all. -/
theorem c8_populate_handler_frame
    (grd : String → HandlerCfg →
      Except EngErr (RelEntry × List ResourceObj × List String))
    (is_root : Bool) (rels : List (String × HandlerCfg))
    (out : List (String × RelEntry) × List ResourceObj × List String ×
           List (String × HandlerCfg))
    (h : populate_relationships grd is_root rels = .ok out) :
    out.2.2.2 = rels.map (fun p => (p.1,
      if is_root then p.2 else { p.2 with show_data := some false })) ∧
    ∀ p ∈ out.2.2.2, ∃ q ∈ rels, p.1 = q.1 ∧
      p.2.serializer_class = q.2.serializer_class ∧
      p.2.many = q.2.many ∧ p.2.read_only = q.2.read_only ∧
      p.2.related_field = q.2.related_field ∧
      (is_root = true → p.2.show_data = q.2.show_data) := by
  have hpost : out.2.2.2 = rels.map (fun p => (p.1,
      if is_root then p.2 else { p.2 with show_data := some false })) := by
    induction rels generalizing out with
    | nil =>
      simp only [populate_relationships] at h
      cases h
      rfl
    | cons p rest ih =>
      obtain ⟨r, h0⟩ := p
      simp only [populate_relationships] at h
      cases hg : grd r (if is_root then h0 else { h0 with show_data := some false }) with
      | error er =>
        rw [hg, except_bind_err] at h
        exact absurd h (by simp)
      | ok v =>
        rw [hg, except_bind_ok] at h
        obtain ⟨entry, inc, tys⟩ := v
        cases hrest : populate_relationships grd is_root rest with
        | error er =>
          simp only [hrest, except_bind_err] at h
          exact absurd h (by simp)
        | ok w =>
          simp only [hrest, except_bind_ok] at h
          cases h
          simp only [List.map_cons]
          exact congrArg _ (ih w hrest)
  refine ⟨hpost, ?_⟩
  intro p hp
  rw [hpost] at hp
  rcases List.mem_map.mp hp with ⟨q, hq, he⟩
  refine ⟨q, hq, ?_⟩
  cases is_root with
  | true =>
    simp only [reduceIte] at he
    rw [← he]
    exact ⟨rfl, rfl, rfl, rfl, rfl, fun _ => rfl⟩
  | false =>
    simp only [Bool.false_eq_true, reduceIte] at he
    rw [← he]
    exact ⟨rfl, rfl, rfl, rfl, rfl, fun hc => by cases hc⟩

/-- C8 amended witness: a successful root-path populate call leaves the
handler table untouched. -/
theorem c8_populate_handler_frame_witness :
    populate_relationships
        (fun r h => get_relationship_data_f emptyRequest
          (fun _ _ _ => .error .fuelExhausted)
          ⟨"T", [], [], [], none, true⟩ bareEntity r h)
        true [("r", ⟨"S", false, false, none, some false⟩)] =
      .ok ([], [], [], [("r", ⟨"S", false, false, none, some false⟩)]) ∧
    ([("r", (⟨"S", false, false, none, some false⟩ : HandlerCfg))].map
      (fun p => (p.1, if true then p.2
                      else { p.2 with show_data := some false }))) =
      [("r", ⟨"S", false, false, none, some false⟩)] :=
  ⟨rfl,
   (c8_populate_handler_frame
     (fun r h => get_relationship_data_f emptyRequest
       (fun _ _ _ => .error .fuelExhausted)
       ⟨"T", [], [], [], none, true⟩ bareEntity r h)
     true [("r", ⟨"S", false, false, none, some false⟩)]
     ([], [], [], [("r", ⟨"S", false, false, none, some false⟩)]) rfl).1.symm⟩

/-- A root-harmless handler outside the include tree yields a
successful relationship entry with no side-loaded resources. -/
theorem grd_root_harmless (req : Request)
    (build : String → List String → Entity → Except EngErr BuildOut)
    (st : SerState) (e : Entity) (r : String) (h : HandlerCfg)
    (hh : rootHarmless h) (hincl : r ∉ st.incl) :
    ∃ entry, get_relationship_data_f req build st e r h =
      .ok (entry, [], []) := by
  rcases hh with hsd | ⟨hsd, hrf⟩
  · refine ⟨⟨build_relationship_links req st.type_ r e, none, none⟩, ?_⟩
    simp [get_relationship_data_f, hsd, hincl]
  · rcases Option.isSome_iff_exists.mp hrf with ⟨f, hf⟩
    simp only [get_relationship_data_f, hsd, hincl, get_related, hf,
      except_bind_ok]
    by_cases hemp : (if h.many then e.rels f else (e.rels f).head?.toList).isEmpty
    · refine ⟨⟨build_relationship_links req st.type_ r e,
        some (if h.many then Linkage.many [] else Linkage.one none), none⟩, ?_⟩
      rw [if_neg (by simp)]
      simp only [hemp, reduceIte]
    · rw [if_neg (by simp)]
      simp only [hemp, Bool.false_eq_true, reduceIte, hincl,
        not_false_eq_true, and_true]
      exact ⟨_, rfl⟩

/-- A handler whose `show_data` attribute was never assigned makes
`get_relationship_data` raise AttributeError. -/
theorem grd_show_data_missing (req : Request)
    (build : String → List String → Entity → Except EngErr BuildOut)
    (st : SerState) (e : Entity) (r : String) (h : HandlerCfg)
    (hsd : h.show_data = none) :
    get_relationship_data_f req build st e r h = .error .attributeError := by
  simp [get_relationship_data_f, hsd]

/-- At the root, the populate loop propagates the AttributeError of the
first handler missing `show_data`, after the harmless earlier handlers
succeed. -/
theorem populate_root_attr_err
    (grd : String → HandlerCfg →
      Except EngErr (RelEntry × List ResourceObj × List String))
    (pre : List (String × HandlerCfg)) (r0 : String) (h0 : HandlerCfg)
    (post : List (String × HandlerCfg))
    (hpre : ∀ p ∈ pre, ∃ entry, grd p.1 p.2 = .ok (entry, [], []))
    (h0err : grd r0 h0 = .error .attributeError) :
    populate_relationships grd true (pre ++ (r0, h0) :: post) =
      .error .attributeError := by
  induction pre with
  | nil =>
    simp only [List.nil_append, populate_relationships, reduceIte, h0err,
      except_bind_err]
  | cons p pre ih =>
    obtain ⟨r, hh⟩ := p
    rcases hpre (r, hh) (List.mem_cons_self _ _) with ⟨entry, hok⟩
    simp only [List.cons_append, populate_relationships, reduceIte, hok,
      except_bind_ok, List.append_eq]
    rw [ih (fun q hq => hpre q (List.mem_cons_of_mem _ hq))]
    rfl

/-- C10: serializing at the root with a relationship handler on which no
`show_data` attribute was ever set (as on the base `RelationshipHandler`
class) raises AttributeError at the unguarded `handler.show_data` read
instead of producing a resource — root serialization is not total over
base-class handlers. -/
theorem c10_root_show_data_attribute_error (schema : Schema) (req : Request)
    (fuel : Nat) (t : String) (e : Entity)
    (pre post : List (String × HandlerCfg)) (r0 : String) (h0 : HandlerCfg)
    (hrels : (schema t).relationships = pre ++ (r0, h0) :: post)
    (hpre : ∀ p ∈ pre, rootHarmless p.2)
    (hsd : h0.show_data = none) :
    buildResource schema req (fuel + 1) t none [] true e =
      .error .attributeError := by
  have hv : validate_includes ((schema t).relationships.map (·.1)) [] =
      .ok [] := rfl
  have hinit := serializer_init_none schema t [] true [] hv
  rw [buildResource, hinit, except_bind_ok]
  simp only [List.map_nil]
  have hpop := populate_root_attr_err
    (fun r h => get_relationship_data_f req
      (fun rt sub x => buildResource schema req fuel rt none sub false x)
      ⟨t, (schema t).fields, [], [], none, true⟩ e r h)
    pre r0 h0 post
    (fun p hp => grd_root_harmless req _ _ e p.1 p.2 (hpre p hp) (by simp))
    (grd_show_data_missing req _ _ e r0 h0 hsd)
  rw [hrels, hpop, except_bind_err]

/-- C10 witness: a schema whose only handler is a bare base-class
handler (no `show_data`) makes root serialization fail with
AttributeError. -/
theorem c10_root_show_data_attribute_error_witness :
    buildResource (fun _ => ⟨[], [("rel", ⟨"S", false, false, none, none⟩)]⟩)
        emptyRequest 1 "T" none [] true bareEntity =
      .error .attributeError :=
  c10_root_show_data_attribute_error
    (fun _ => ⟨[], [("rel", ⟨"S", false, false, none, none⟩)]⟩)
    emptyRequest 0 "T" bareEntity [] [] "rel"
    ⟨"S", false, false, none, none⟩ rfl (by simp) rfl

/-- A handler forced to `show_data = False` whose relation is not in the
include list bails out with links only. -/
theorem grd_bail (req : Request)
    (build : String → List String → Entity → Except EngErr BuildOut)
    (st : SerState) (e : Entity) (r : String) (h : HandlerCfg)
    (hsd : h.show_data = some false) (hr : r ∉ st.incl) :
    get_relationship_data_f req build st e r h =
      .ok (⟨build_relationship_links req st.type_ r e, none, none⟩, [], []) := by
  simp [get_relationship_data_f, hsd, hr]

/-- The populate loop distributes over list append, concatenating all
four accumulators. -/
theorem populate_append
    (grd : String → HandlerCfg →
      Except EngErr (RelEntry × List ResourceObj × List String))
    (is_root : Bool) (l1 l2 : List (String × HandlerCfg)) :
    populate_relationships grd is_root (l1 ++ l2) =
      (populate_relationships grd is_root l1) >>= fun a =>
        (populate_relationships grd is_root l2) >>= fun b =>
          .ok (a.1 ++ b.1, a.2.1 ++ b.2.1, a.2.2.1 ++ b.2.2.1,
               a.2.2.2 ++ b.2.2.2) := by
  induction l1 with
  | nil =>
    rw [List.nil_append, populate_relationships, except_bind_ok]
    cases h2 : populate_relationships grd is_root l2 with
    | error er => rfl
    | ok b => simp [except_bind_ok]
  | cons p l1 ih =>
    obtain ⟨r, h⟩ := p
    rw [List.cons_append, populate_relationships, populate_relationships, ih]
    cases hg : grd r (if is_root then h else { h with show_data := some false }) with
    | error er => rfl
    | ok v =>
      obtain ⟨entry, inc, tys⟩ := v
      cases h1 : populate_relationships grd is_root l1 with
      | error er => rfl
      | ok a =>
        obtain ⟨e1, i1, t1, p1⟩ := a
        cases h2 : populate_relationships grd is_root l2 with
        | error er => rfl
        | ok b =>
          obtain ⟨e2, i2, t2, p2⟩ := b
          show Except.ok _ = Except.ok _
          simp only [Except.ok.injEq, Prod.mk.injEq]
          refine ⟨?_, by simp, by simp, by simp⟩
          by_cases hkeep : entry.links ≠ [] ∨ entry.data ≠ none ∨ entry.meta ≠ none <;>
            simp [hkeep]

/-- On the non-root path every relationship whose name is outside the
include list succeeds with no side-loaded resources. -/
theorem populate_nonroot_bail (req : Request)
    (build : String → List String → Entity → Except EngErr BuildOut)
    (st : SerState) (e : Entity)
    (rels : List (String × HandlerCfg))
    (hout : ∀ p ∈ rels, p.1 ∉ st.incl) :
    ∃ entries post,
      populate_relationships
        (fun r h => get_relationship_data_f req build st e r h)
        false rels = .ok (entries, [], [], post) := by
  induction rels with
  | nil => exact ⟨[], [], rfl⟩
  | cons p rels ih =>
    obtain ⟨r, h⟩ := p
    rcases ih (fun q hq => hout q (List.mem_cons_of_mem _ hq)) with
      ⟨entries, post, hok⟩
    rw [populate_relationships]
    simp only [Bool.false_eq_true, reduceIte]
    rw [grd_bail req build st e r { h with show_data := some false } rfl
      (hout (r, h) (List.mem_cons_self _ _)), except_bind_ok, hok,
      except_bind_ok]
    exact ⟨_, _, rfl⟩

/-- Leaf serialization: at non-root with no includes, every build
succeeds, side-loads nothing, and stamps the serializer's type and the
entity's id on the resource. -/
theorem buildResource_leaf (schema : Schema) (req : Request) (t : String)
    (y : Entity) :
    ∃ res, buildResource schema req 1 t none [] false y =
        .ok ⟨res, [], [t]⟩ ∧ res.type = t ∧ res.id = y.eid := by
  have hv : validate_includes ((schema t).relationships.map (·.1)) [] =
      .ok [] := rfl
  have hinit := serializer_init_none schema t [] false [] hv
  rcases populate_nonroot_bail req
      (fun rt sub x => buildResource schema req 0 rt none sub false x)
      ⟨t, (schema t).fields, [], [], none, false⟩ y
      ((schema t).relationships) (fun p _ => by simp) with
    ⟨entries, post, hpop⟩
  refine ⟨⟨t, y.eid, (schema t).fields.map (fun f => (f, y.attr f)),
    entries, resource_links req t y⟩, ?_, rfl, rfl⟩
  show buildResource schema req (0 + 1) t none [] false y = _
  rw [buildResource, hinit, except_bind_ok]
  simp only [List.map_nil]
  rw [hpop, except_bind_ok]
  rfl

/-- `mapM` of a pointwise-successful builder succeeds, relating inputs
to outputs positionally. -/
theorem mapM_ok_forall₂ (f : Entity → Except EngErr BuildOut)
    (l : List Entity) (hf : ∀ x ∈ l, ∃ o, f x = .ok o) :
    ∃ outs, l.mapM f = .ok outs ∧
      List.Forall₂ (fun x o => f x = .ok o) l outs := by
  induction l with
  | nil => exact ⟨[], rfl, List.Forall₂.nil⟩
  | cons x l ih =>
    rcases hf x (List.mem_cons_self _ _) with ⟨o, ho⟩
    rcases ih (fun z hz => hf z (List.mem_cons_of_mem _ hz)) with
      ⟨outs, houts, hfa⟩
    refine ⟨o :: outs, ?_, List.Forall₂.cons ho hfa⟩
    rw [List.mapM_cons, ho, houts]
    rfl

/-- A left member of a `Forall₂` has a related right member. -/
theorem forall₂_mem_left {α β : Type} {R : α → β → Prop} {l : List α}
    {m : List β} (h : List.Forall₂ R l m) (a : α) (ha : a ∈ l) :
    ∃ b ∈ m, R a b := by
  induction h with
  | nil => simp at ha
  | cons hr _ ih =>
    rcases List.mem_cons.mp ha with rfl | ha2
    · exact ⟨_, List.mem_cons_self _ _, hr⟩
    · rcases ih ha2 with ⟨b, hb, hrb⟩
      exact ⟨b, List.mem_cons_of_mem _ hb, hrb⟩

/-- A right member of a `Forall₂` has a related left member. -/
theorem forall₂_mem_right {α β : Type} {R : α → β → Prop} {l : List α}
    {m : List β} (h : List.Forall₂ R l m) (b : β) (hb : b ∈ m) :
    ∃ a ∈ l, R a b := by
  induction h with
  | nil => simp at hb
  | cons hr _ ih =>
    rcases List.mem_cons.mp hb with rfl | hb2
    · exact ⟨_, List.mem_cons_self _ _, hr⟩
    · rcases ih hb2 with ⟨a, ha, hra⟩
      exact ⟨a, List.mem_cons_of_mem _ ha, hra⟩

/-- Pairwise facts transfer along a `Forall₂` correspondence. -/
theorem pairwise_of_forall₂ {α β : Type} {R : α → β → Prop}
    {P : α → α → Prop} {Q : β → β → Prop} {l : List α} {m : List β}
    (h : List.Forall₂ R l m) (hp : l.Pairwise P)
    (himp : ∀ a b a' b', R a b → R a' b' → P a a' → Q b b') :
    m.Pairwise Q := by
  induction h with
  | nil => exact List.Pairwise.nil
  | cons hr htail ih =>
    rw [List.pairwise_cons] at hp ⊢
    refine ⟨?_, ih hp.2⟩
    intro b' hb'
    rcases forall₂_mem_right htail b' hb' with ⟨a', ha', hra'⟩
    exact himp _ _ _ _ hr hra' (hp.1 a' ha')

/-- A flatMap of uniformly empty projections is empty. -/
theorem flatMap_included_nil (outs : List BuildOut)
    (h : ∀ o ∈ outs, o.included = []) :
    outs.flatMap (·.included) = [] := by
  induction outs with
  | nil => rfl
  | cons o outs ih =>
    rw [List.flatMap_cons, h o (List.mem_cons_self _ _),
      ih (fun z hz => h z (List.mem_cons_of_mem _ hz))]
    rfl

/-- Relationship data for the included `b` relation on the non-root
path: every related entity is leaf-built, those builds (in order) are
the relation's contribution to the included accumulator, and each build
stamps the related type and entity id. -/
theorem grd_mid_b (schema : Schema) (req : Request) (x : Entity)
    (tA : String) (bH : HandlerCfg) (fb : String)
    (hbf : bH.related_field = some fb)
    (hreq : ∀ k, req.GETnat k = none) :
    ∃ outsB,
      (if bH.many then x.rels fb else (x.rels fb).head?.toList).mapM
          (buildResource schema req 1 bH.serializer_class none [] false) =
        .ok outsB ∧
      List.Forall₂ (fun y o =>
          buildResource schema req 1 bH.serializer_class none [] false y =
            .ok o ∧ o.included = [] ∧ o.resource.type = bH.serializer_class ∧
          o.resource.id = y.eid)
        (if bH.many then x.rels fb else (x.rels fb).head?.toList) outsB ∧
      ∃ entry tys,
        get_relationship_data_f req
            (fun rt sub z => buildResource schema req 1 rt none sub false z)
            ⟨tA, (schema tA).fields, [("b", [])], ["b"], none, false⟩ x "b"
            { bH with show_data := some false } =
          .ok (entry, outsB.map (·.resource), tys) := by
  have hleaf : ∀ y, ∃ o,
      buildResource schema req 1 bH.serializer_class none [] false y = .ok o := by
    intro y
    rcases buildResource_leaf schema req bH.serializer_class y with ⟨res, hb, _, _⟩
    exact ⟨_, hb⟩
  rcases mapM_ok_forall₂ _ (if bH.many then x.rels fb else (x.rels fb).head?.toList)
      (fun y _ => hleaf y) with ⟨outsB, hmapM, hfa0⟩
  have hfa : List.Forall₂ (fun y o =>
      buildResource schema req 1 bH.serializer_class none [] false y =
        .ok o ∧ o.included = [] ∧ o.resource.type = bH.serializer_class ∧
      o.resource.id = y.eid)
      (if bH.many then x.rels fb else (x.rels fb).head?.toList) outsB := by
    refine hfa0.imp ?_
    intro y o ho
    rcases buildResource_leaf schema req bH.serializer_class y with
      ⟨res, hb, ht, hid⟩
    rw [ho] at hb
    cases Except.ok.inj hb
    exact ⟨ho, rfl, ht, hid⟩
  have hinc0 : ∀ o ∈ outsB, o.included = [] := by
    intro o ho
    rcases forall₂_mem_right hfa o ho with ⟨y, _, hy⟩
    exact hy.2.1
  refine ⟨outsB, hmapM, hfa, ?_⟩
  by_cases hemp : (if bH.many then x.rels fb else (x.rels fb).head?.toList).isEmpty
  · have hnil : (if bH.many then x.rels fb else (x.rels fb).head?.toList) = [] :=
      List.isEmpty_iff.mp hemp
    have houts : outsB = [] := by
      rw [hnil] at hmapM
      cases Except.ok.inj hmapM
      rfl
    subst houts
    simp only [get_relationship_data_f, get_related, hbf, except_bind_ok]
    rw [if_neg (by simp)]
    simp only [hemp, reduceIte]
    exact ⟨_, _, rfl⟩
  · by_cases hm : bH.many
    · simp only [hm, reduceIte] at hemp hmapM
      simp only [get_relationship_data_f, get_related, hbf, except_bind_ok, hm,
        if_true]
      rw [if_neg (show ¬((!false) = true ∧ "b" ∉ (["b"] : List String))
        from by simp)]
      rw [if_neg (show ¬((x.rels fb).isEmpty = true) from hemp)]
      rw [if_neg (show ¬("b" ∉ (["b"] : List String)) from by simp)]
      simp only [hreq, if_true,
        show treeGet [("b", [])] "b" = ([] : List String) from rfl]
      rw [hmapM, except_bind_ok]
      rw [show dedupIncluded (outsB.flatMap (·.included)) = [] by
        rw [flatMap_included_nil outsB hinc0]; rfl]
      rw [List.append_nil]
      exact ⟨_, _, rfl⟩
    · have hm' : bH.many = false := by
        cases hmb : bH.many
        · rfl
        · exact absurd hmb hm
      cases hhead : (x.rels fb).head? with
      | none =>
        rw [hm'] at hemp
        simp [hhead] at hemp
      | some y0 =>
        rcases hleaf y0 with ⟨ob, hob⟩
        have houts : outsB = [ob] := by
          rw [hm'] at hmapM
          simp only [Bool.false_eq_true, reduceIte, hhead,
            Option.toList_some] at hmapM
          rw [List.mapM_cons, hob] at hmapM
          simp only [List.mapM_nil] at hmapM
          cases Except.ok.inj hmapM
          rfl
        subst houts
        have hinc : ob.included = [] := hinc0 ob (List.mem_cons_self _ _)
        simp only [get_relationship_data_f, get_related, hbf, except_bind_ok,
          hm', Bool.false_eq_true, reduceIte]
        rw [if_neg (show ¬((!false) = true ∧ "b" ∉ (["b"] : List String))
          from by simp)]
        rw [if_neg (show ¬(((x.rels fb).head?.toList).isEmpty = true) from by
          simpa [hm'] using hemp)]
        rw [if_neg (show ¬("b" ∉ (["b"] : List String)) from by simp)]
        simp only [hhead, Option.toList_some, List.head?_cons,
          show treeGet [("b", [])] "b" = ([] : List String) from rfl]
        rw [hob, except_bind_ok, hinc]
        exact ⟨_, _, rfl⟩

/-- Serializing one `a`-related entity at the non-root level with the
carried-forward include `b`: the build succeeds and its included
accumulator is exactly the leaf builds of its `b`-related entities, in
order. -/
theorem buildResource_mid (schema : Schema) (req : Request) (x : Entity)
    (tA : String) (bH : HandlerCfg) (fb : String)
    (preB postB : List (String × HandlerCfg))
    (hbrels : (schema tA).relationships = preB ++ ("b", bH) :: postB)
    (hbother : ∀ p ∈ preB ++ postB, p.1 ≠ "b")
    (hbf : bH.related_field = some fb)
    (hreq : ∀ k, req.GETnat k = none) :
    ∃ oa outsB,
      buildResource schema req 2 tA none ["b"] false x = .ok oa ∧
      (if bH.many then x.rels fb else (x.rels fb).head?.toList).mapM
          (buildResource schema req 1 bH.serializer_class none [] false) =
        .ok outsB ∧
      oa.included = outsB.map (·.resource) ∧
      List.Forall₂ (fun y o =>
          buildResource schema req 1 bH.serializer_class none [] false y =
            .ok o ∧ o.included = [] ∧ o.resource.type = bH.serializer_class ∧
          o.resource.id = y.eid)
        (if bH.many then x.rels fb else (x.rels fb).head?.toList) outsB := by
  have hkey : "b" ∈ (schema tA).relationships.map (·.1) := by
    rw [hbrels]
    simp
  have hvB : validate_includes ((schema tA).relationships.map (·.1)) ["b"] =
      .ok [("b", [])] := by
    simp only [validate_includes]
    rw [show build_include_tree ["b"] = [("b", [])] from rfl]
    simp [hkey]
  have hinitA := serializer_init_none schema tA ["b"] false [("b", [])] hvB
  rcases grd_mid_b schema req x tA bH fb hbf hreq with
    ⟨outsB, hmapM, hfa, entryB, tysB, hgrdB⟩
  rcases populate_nonroot_bail req
      (fun rt sub z => buildResource schema req 1 rt none sub false z)
      ⟨tA, (schema tA).fields, [("b", [])], ["b"], none, false⟩ x preB
      (fun p hp => by
        simpa using fun hc => hbother p (List.mem_append_left _ hp) hc) with
    ⟨e1, p1, hpop1⟩
  rcases populate_nonroot_bail req
      (fun rt sub z => buildResource schema req 1 rt none sub false z)
      ⟨tA, (schema tA).fields, [("b", [])], ["b"], none, false⟩ x postB
      (fun p hp => by
        simpa using fun hc => hbother p (List.mem_append_right _ hp) hc) with
    ⟨e3, p3, hpop3⟩
  have hbuild : ∃ oa, buildResource schema req 2 tA none ["b"] false x =
      .ok oa ∧ oa.included = [] ++ (outsB.map (·.resource) ++ []) := by
    show ∃ oa, buildResource schema req (1 + 1) tA none ["b"] false x =
      .ok oa ∧ _
    rw [buildResource, hinitA, except_bind_ok]
    simp only [List.map_cons, List.map_nil]
    rw [hbrels, populate_append, hpop1, except_bind_ok]
    rw [populate_relationships]
    simp only [Bool.false_eq_true, reduceIte]
    rw [hgrdB, except_bind_ok, hpop3, except_bind_ok, except_bind_ok]
    exact ⟨_, rfl, rfl⟩
  rcases hbuild with ⟨oa, hoa, hinc⟩
  refine ⟨oa, outsB, hoa, hmapM, ?_, hfa⟩
  rw [hinc]
  simp

/-- `Forall₂` transfers to a mapped right-hand list. -/
theorem forall₂_map_right {α β γ : Type} {S : α → γ → Prop}
    {R : α → β → Prop} {l : List α} {u : List γ}
    (h : List.Forall₂ S l u) (f : γ → β)
    (himp : ∀ a c, S a c → R a (f c)) :
    List.Forall₂ R l (u.map f) := by
  induction h with
  | nil => exact List.Forall₂.nil
  | cons hs _ ih => exact List.Forall₂.cons (himp _ _ hs) ih

/-- `Forall₂` distributes over flatMap when each pair's expansion is
related pointwise. -/
theorem forall₂_flatMap {α β γ δ : Type} {P : α → β → Prop}
    {R : γ → δ → Prop} {l : List α} {m : List β}
    (h : List.Forall₂ P l m) (g : α → List γ) (k : β → List δ)
    (hin : ∀ a b, P a b → List.Forall₂ R (g a) (k b)) :
    List.Forall₂ R (l.flatMap g) (m.flatMap k) := by
  induction h with
  | nil => exact List.Forall₂.nil
  | cons hp _ ih =>
    rw [List.flatMap_cons, List.flatMap_cons]
    exact List.rel_append (hin _ _ hp) ih

/-- At the root, harmless handlers outside the include list all succeed
without side-loading. -/
theorem populate_root_harmless_bail (req : Request)
    (build : String → List String → Entity → Except EngErr BuildOut)
    (st : SerState) (e : Entity) (rels : List (String × HandlerCfg))
    (hh : ∀ p ∈ rels, rootHarmless p.2 ∧ p.1 ∉ st.incl) :
    ∃ entries post,
      populate_relationships
        (fun r h => get_relationship_data_f req build st e r h)
        true rels = .ok (entries, [], [], post) := by
  induction rels with
  | nil => exact ⟨[], [], rfl⟩
  | cons p rels ih =>
    obtain ⟨r, h⟩ := p
    rcases ih (fun q hq => hh q (List.mem_cons_of_mem _ hq)) with
      ⟨entries, post, hok⟩
    rcases grd_root_harmless req build st e r h
        (hh (r, h) (List.mem_cons_self _ _)).1
        (hh (r, h) (List.mem_cons_self _ _)).2 with ⟨entry, hgrd⟩
    rw [populate_relationships]
    simp only [reduceIte]
    rw [hgrd, except_bind_ok, hok, except_bind_ok]
    exact ⟨_, _, rfl⟩

/-- Relationship data for the included `a` relation at the root: the
builds of the entities reached via `a` and, through them, the leaf
builds of the entities reached via `a.b` all land in the relation's
included contribution (the nested list-serializer dedup cannot drop
them when equal keys imply equal builds). -/
theorem grd_root_a (schema : Schema) (req : Request) (e : Entity)
    (rootT : String) (aH bH : HandlerCfg) (sd : Bool) (fa fb : String)
    (preB postB : List (String × HandlerCfg))
    (hasd : aH.show_data = some sd)
    (haf : aH.related_field = some fa)
    (hbrels : (schema aH.serializer_class).relationships =
      preB ++ ("b", bH) :: postB)
    (hbother : ∀ p ∈ preB ++ postB, p.1 ≠ "b")
    (hbf : bH.related_field = some fb)
    (hreq : ∀ k, req.GETnat k = none)
    (hinj : ((if aH.many then e.rels fa else (e.rels fa).head?.toList).flatMap
        (fun x => if bH.many then x.rels fb
                  else (x.rels fb).head?.toList)).Pairwise
      (fun y1 y2 => y1.eid = y2.eid →
        buildResource schema req 1 bH.serializer_class none [] false y1 =
        buildResource schema req 1 bH.serializer_class none [] false y2)) :
    ∃ entry incA tys,
      get_relationship_data_f req
          (fun rt sub z => buildResource schema req 2 rt none sub false z)
          ⟨rootT, (schema rootT).fields, [("a", ["b"])], ["a"], none, true⟩
          e "a" aH =
        .ok (entry, incA, tys) ∧
      (∀ x ∈ (if aH.many then e.rels fa else (e.rels fa).head?.toList),
        ∃ oa, buildResource schema req 2 aH.serializer_class none ["b"]
            false x = .ok oa ∧ oa.resource ∈ incA) ∧
      (∀ x ∈ (if aH.many then e.rels fa else (e.rels fa).head?.toList),
        ∀ y ∈ (if bH.many then x.rels fb else (x.rels fb).head?.toList),
        ∃ ob, buildResource schema req 1 bH.serializer_class none []
            false y = .ok ob ∧ ob.resource ∈ incA) := by
  have hmid := fun x => buildResource_mid schema req x aH.serializer_class
    bH fb preB postB hbrels hbother hbf hreq
  by_cases hemp : (if aH.many then e.rels fa else (e.rels fa).head?.toList).isEmpty
  · have hnil : (if aH.many then e.rels fa else (e.rels fa).head?.toList) = [] :=
      List.isEmpty_iff.mp hemp
    refine ⟨⟨build_relationship_links req rootT "a" e,
      some (if aH.many then Linkage.many [] else Linkage.one none), none⟩,
      [], [], ?_, ?_, ?_⟩
    · simp only [get_relationship_data_f, get_related, haf, except_bind_ok,
        hasd]
      rw [if_neg (show ¬((!sd) = true ∧ "a" ∉ (["a"] : List String))
        from by simp)]
      simp only [hemp, reduceIte]
    · intro x hx
      rw [hnil] at hx
      simp at hx
    · intro x hx
      rw [hnil] at hx
      simp at hx
  · by_cases hm : aH.many
    · have hAok : ∀ x ∈ e.rels fa, ∃ o,
          buildResource schema req 2 aH.serializer_class none ["b"] false x =
            .ok o := by
        intro x _
        rcases hmid x with ⟨oa, _, hoa, _⟩
        exact ⟨oa, hoa⟩
      rcases mapM_ok_forall₂ _ (e.rels fa) hAok with ⟨aOuts, hAmapM, hAfa0⟩
      have hAfa : List.Forall₂ (fun x o =>
          buildResource schema req 2 aH.serializer_class none ["b"] false x =
            .ok o ∧
          ∃ outs, (if bH.many then x.rels fb
              else (x.rels fb).head?.toList).mapM
              (buildResource schema req 1 bH.serializer_class none [] false) =
            .ok outs ∧ o.included = outs.map (·.resource) ∧
            List.Forall₂ (fun y o2 =>
              buildResource schema req 1 bH.serializer_class none [] false y =
                .ok o2 ∧ o2.included = [] ∧
              o2.resource.type = bH.serializer_class ∧
              o2.resource.id = y.eid)
              (if bH.many then x.rels fb else (x.rels fb).head?.toList) outs)
          (e.rels fa) aOuts := by
        refine hAfa0.imp ?_
        intro x o ho
        rcases hmid x with ⟨oa, outs, hoa, hmm, hin, hfaB⟩
        rw [ho] at hoa
        cases Except.ok.inj hoa
        exact ⟨ho, outs, hmm, hin, hfaB⟩
      have hAllB : List.Forall₂ (fun y z =>
          (∃ o2, buildResource schema req 1 bH.serializer_class none []
              false y = .ok o2 ∧ o2.resource = z) ∧
          z.type = bH.serializer_class ∧ z.id = y.eid)
          ((e.rels fa).flatMap (fun x => if bH.many then x.rels fb
            else (x.rels fb).head?.toList))
          (aOuts.flatMap (·.included)) := by
        refine forall₂_flatMap hAfa _ _ ?_
        intro x o hP
        rcases hP with ⟨_, outs, _, hin, hfaB⟩
        rw [hin]
        refine forall₂_map_right hfaB _ ?_
        intro y o2 hl
        exact ⟨⟨o2, hl.1, rfl⟩, hl.2.2.1, hl.2.2.2⟩
      have hpw : (aOuts.flatMap (·.included)).Pairwise
          (fun u v => includedKey u = includedKey v → u = v) := by
        have hinj2 : ((e.rels fa).flatMap (fun x => if bH.many then x.rels fb
            else (x.rels fb).head?.toList)).Pairwise
            (fun y1 y2 => y1.eid = y2.eid →
              buildResource schema req 1 bH.serializer_class none [] false y1 =
              buildResource schema req 1 bH.serializer_class none [] false y2) := by
          simpa [hm] using hinj
        refine pairwise_of_forall₂ hAllB hinj2 ?_
        · intro y1 z1 y2 z2 h1 h2 hp hk
          rcases h1 with ⟨⟨o1, hb1, hr1⟩, ht1, hi1⟩
          rcases h2 with ⟨⟨o2, hb2, hr2⟩, ht2, hi2⟩
          have hid : z1.id = z2.id := congrArg Prod.snd hk
          have heid : y1.eid = y2.eid := by rw [← hi1, ← hi2, hid]
          have hbeq := hp heid
          rw [hb1, hb2] at hbeq
          cases Except.ok.inj hbeq
          rw [← hr1, ← hr2]
      have hgrd : ∃ entry tys,
          get_relationship_data_f req
              (fun rt sub z => buildResource schema req 2 rt none sub false z)
              ⟨rootT, (schema rootT).fields, [("a", ["b"])], ["a"], none, true⟩
              e "a" aH =
            .ok (entry, aOuts.map (·.resource) ++
              dedupIncluded (aOuts.flatMap (·.included)), tys) := by
        simp only [hm, reduceIte] at hemp hAmapM
        simp only [get_relationship_data_f, get_related, haf, except_bind_ok,
          hasd, hm, if_true]
        rw [if_neg (show ¬((!sd) = true ∧ "a" ∉ (["a"] : List String))
          from by simp)]
        rw [if_neg (show ¬((e.rels fa).isEmpty = true) from hemp)]
        rw [if_neg (show ¬("a" ∉ (["a"] : List String)) from by simp)]
        simp only [hreq, if_true,
          show treeGet [("a", ["b"])] "a" = (["b"] : List String) from rfl]
        rw [hAmapM, except_bind_ok]
        exact ⟨_, _, rfl⟩
      rcases hgrd with ⟨entry, tys, hgrd⟩
      refine ⟨entry, _, tys, hgrd, ?_, ?_⟩
      · intro x hx
        rw [if_pos hm] at hx
        rcases forall₂_mem_left hAfa x hx with ⟨oa, hoam, hP⟩
        exact ⟨oa, hP.1, List.mem_append_left _
          (List.mem_map.mpr ⟨oa, hoam, rfl⟩)⟩
      · intro x hx y hy
        rw [if_pos hm] at hx
        rcases forall₂_mem_left hAfa x hx with ⟨oa, hoam, hP⟩
        rcases hP with ⟨_, outs, _, hin, hfaB⟩
        rcases forall₂_mem_left hfaB y hy with ⟨ob, hobm, hl⟩
        refine ⟨ob, hl.1, List.mem_append_right _ ?_⟩
        refine mem_dedupIncluded_of_pairwise _ hpw _ ?_
        exact List.mem_flatMap.mpr ⟨oa, hoam,
          hin ▸ List.mem_map.mpr ⟨ob, hobm, rfl⟩⟩
    · have hm' : aH.many = false := by
        cases hmb : aH.many
        · rfl
        · exact absurd hmb hm
      cases hhead : (e.rels fa).head? with
      | none =>
        rw [hm'] at hemp
        simp [hhead] at hemp
      | some x0 =>
        rcases hmid x0 with ⟨oa, outs, hoa, hmm, hin, hfaB⟩
        have hgrd : ∃ entry tys,
            get_relationship_data_f req
                (fun rt sub z => buildResource schema req 2 rt none sub false z)
                ⟨rootT, (schema rootT).fields, [("a", ["b"])], ["a"], none,
                  true⟩ e "a" aH =
              .ok (entry, oa.resource :: oa.included, tys) := by
          simp only [get_relationship_data_f, get_related, haf,
            except_bind_ok, hasd, hm', Bool.false_eq_true, reduceIte]
          rw [if_neg (show ¬((!sd) = true ∧ "a" ∉ (["a"] : List String))
            from by simp)]
          rw [if_neg (show ¬(((e.rels fa).head?.toList).isEmpty = true)
            from by simpa [hm'] using hemp)]
          rw [if_neg (show ¬("a" ∉ (["a"] : List String)) from by simp)]
          simp only [hhead, Option.toList_some, List.head?_cons,
            show treeGet [("a", ["b"])] "a" = (["b"] : List String) from rfl]
          rw [hoa, except_bind_ok]
          exact ⟨_, _, rfl⟩
        rcases hgrd with ⟨entry, tys, hgrd⟩
        refine ⟨entry, _, tys, hgrd, ?_, ?_⟩
        · intro x hx
          rw [if_neg (by rw [hm']; simp), Option.toList_some] at hx
          rcases List.mem_singleton.mp hx with rfl
          exact ⟨oa, hoa, List.mem_cons_self _ _⟩
        · intro x hx y hy
          rw [if_neg (by rw [hm']; simp), Option.toList_some] at hx
          rcases List.mem_singleton.mp hx with rfl
          rcases forall₂_mem_left hfaB y hy with ⟨ob, hobm, hl⟩
          refine ⟨ob, hl.1, List.mem_cons_of_mem _ ?_⟩
          rw [hin]
          exact List.mem_map.mpr ⟨ob, hobm, rfl⟩

/-- C1: for a root serialization with include path `a.b`, where `a` is
declared on the primary type and `b` on its related type, the emitted
document side-loads both levels: every entity reached via `a` is built
with the carried-forward sub-path `["b"]` and its resource object lands
in the included accumulator, and every entity reached via `a.b` is
leaf-built and its resource object also lands in the accumulator (the
equal-key-implies-equal-build hypothesis rules out collisions in the
nested list-serializer dedup). -/
theorem c1_nested_include_side_loading
    (schema : Schema) (req : Request) (e : Entity) (rootT : String)
    (aH bH : HandlerCfg) (sd : Bool) (fa fb : String)
    (preA postA preB postB : List (String × HandlerCfg))
    (hroot : (schema rootT).relationships = preA ++ ("a", aH) :: postA)
    (hprepost : ∀ p ∈ preA ++ postA, p.1 ≠ "a" ∧ rootHarmless p.2)
    (hasd : aH.show_data = some sd)
    (haf : aH.related_field = some fa)
    (hbrels : (schema aH.serializer_class).relationships =
      preB ++ ("b", bH) :: postB)
    (hbother : ∀ p ∈ preB ++ postB, p.1 ≠ "b")
    (hbf : bH.related_field = some fb)
    (hreq : ∀ k, req.GETnat k = none)
    (hinj : ((if aH.many then e.rels fa else (e.rels fa).head?.toList).flatMap
        (fun x => if bH.many then x.rels fb
                  else (x.rels fb).head?.toList)).Pairwise
      (fun y1 y2 => y1.eid = y2.eid →
        buildResource schema req 1 bH.serializer_class none [] false y1 =
        buildResource schema req 1 bH.serializer_class none [] false y2)) :
    ∃ out, buildResource schema req 3 rootT none ["a.b"] true e = .ok out ∧
      retrieve_document schema req 3 rootT none ["a.b"] e =
        .ok { data := .one out.resource, included := out.included } ∧
      (∀ x ∈ (if aH.many then e.rels fa else (e.rels fa).head?.toList),
        ∃ oa, buildResource schema req 2 aH.serializer_class none ["b"]
            false x = .ok oa ∧ oa.resource ∈ out.included) ∧
      (∀ x ∈ (if aH.many then e.rels fa else (e.rels fa).head?.toList),
        ∀ y ∈ (if bH.many then x.rels fb else (x.rels fb).head?.toList),
        ∃ ob, buildResource schema req 1 bH.serializer_class none []
            false y = .ok ob ∧ ob.resource ∈ out.included) := by
  have hkeyA : "a" ∈ (schema rootT).relationships.map (·.1) := by
    rw [hroot]
    simp
  have hvA : validate_includes ((schema rootT).relationships.map (·.1))
      ["a.b"] = .ok [("a", ["b"])] := by
    simp only [validate_includes]
    rw [show build_include_tree ["a.b"] = [("a", ["b"])] from rfl]
    simp [hkeyA]
  have hinit := serializer_init_none schema rootT ["a.b"] true
    [("a", ["b"])] hvA
  rcases grd_root_a schema req e rootT aH bH sd fa fb preB postB hasd haf
    hbrels hbother hbf hreq hinj with ⟨entry, incA, tys, hgrd, hmemA, hmemB⟩
  rcases populate_root_harmless_bail req
      (fun rt sub z => buildResource schema req 2 rt none sub false z)
      ⟨rootT, (schema rootT).fields, [("a", ["b"])], ["a"], none, true⟩ e preA
      (fun p hp => ⟨(hprepost p (List.mem_append_left _ hp)).2, by
        simpa using (hprepost p (List.mem_append_left _ hp)).1⟩) with
    ⟨e1, p1, hpop1⟩
  rcases populate_root_harmless_bail req
      (fun rt sub z => buildResource schema req 2 rt none sub false z)
      ⟨rootT, (schema rootT).fields, [("a", ["b"])], ["a"], none, true⟩ e postA
      (fun p hp => ⟨(hprepost p (List.mem_append_right _ hp)).2, by
        simpa using (hprepost p (List.mem_append_right _ hp)).1⟩) with
    ⟨e3, p3, hpop3⟩
  have hvs : ∀ tys2 : List String, validate_sparse_fieldsets none tys2 =
      .ok () := fun _ => rfl
  have hbuild : ∃ out,
      buildResource schema req 3 rootT none ["a.b"] true e = .ok out ∧
      out.included = [] ++ (incA ++ []) := by
    show ∃ out, buildResource schema req (2 + 1) rootT none ["a.b"] true e =
      .ok out ∧ _
    rw [buildResource, hinit, except_bind_ok]
    simp only [List.map_cons, List.map_nil]
    rw [hroot, populate_append, hpop1, except_bind_ok]
    rw [populate_relationships]
    simp only [reduceIte]
    rw [hgrd, except_bind_ok, hpop3, except_bind_ok, except_bind_ok,
      except_bind_ok, hvs, except_bind_ok]
    exact ⟨_, rfl, rfl⟩
  rcases hbuild with ⟨out, hout, hinc⟩
  have hinc2 : out.included = incA := by
    rw [hinc]
    simp
  refine ⟨out, hout, ?_, ?_, ?_⟩
  · rw [retrieve_document, hout]
    rfl
  · intro x hx
    rcases hmemA x hx with ⟨oa, hoa, hmem⟩
    exact ⟨oa, hoa, by rw [hinc2]; exact hmem⟩
  · intro x hx y hy
    rcases hmemB x hx y hy with ⟨ob, hob, hmem⟩
    exact ⟨ob, hob, by rw [hinc2]; exact hmem⟩

/-- C1 witness: in the concrete three-type schema, requesting
`include=a.b` at the root surfaces both the A-level build and the
B-level leaf build in the included accumulator. -/
theorem c1_nested_include_side_loading_witness :
    ∃ out, buildResource c1Schema emptyRequest 3 "T" none ["a.b"] true
        c1Root = .ok out ∧
      retrieve_document c1Schema emptyRequest 3 "T" none ["a.b"] c1Root =
        .ok { data := .one out.resource, included := out.included } ∧
      (∀ x ∈ (if (⟨"A", true, false, some "as", some true⟩ : HandlerCfg).many
          then c1Root.rels "as" else (c1Root.rels "as").head?.toList),
        ∃ oa, buildResource c1Schema emptyRequest 2 "A" none ["b"] false x =
          .ok oa ∧ oa.resource ∈ out.included) ∧
      (∀ x ∈ (if (⟨"A", true, false, some "as", some true⟩ : HandlerCfg).many
          then c1Root.rels "as" else (c1Root.rels "as").head?.toList),
        ∀ y ∈ (if (⟨"B", true, false, some "bs", some true⟩ : HandlerCfg).many
          then x.rels "bs" else (x.rels "bs").head?.toList),
        ∃ ob, buildResource c1Schema emptyRequest 1 "B" none [] false y =
          .ok ob ∧ ob.resource ∈ out.included) :=
  c1_nested_include_side_loading c1Schema emptyRequest c1Root "T"
    ⟨"A", true, false, some "as", some true⟩
    ⟨"B", true, false, some "bs", some true⟩ true "as" "bs" [] [] [] []
    rfl (by simp) rfl rfl rfl (by simp) rfl (fun _ => rfl)
    (show List.Pairwise _ [c1B] from List.pairwise_singleton _ _)

end DrfJsonApi
